import Mathlib

/-! # speed: a throttled pipe with a progress monitor

A shallow embedding of `speed.go` and the properties checked on it.

Conventions of the embedding.

* Go's `int` is the 64-bit two's-complement integer.  A value is an `Int`; every
  arithmetic result is passed through `wrap64`, and `/` is `Int.tdiv` (Go truncates
  towards zero).
* A `float64` that holds an integer is written as that integer; the only rounding
  in the program is the conversion `float64(x)` of an `int`, modelled by
  `float64OfInt` (53 significant bits, ties to even).  The quotient returned by
  `inBynaryPrefix` is a rational: its divisor is a power of two, so the `float64`
  division is exact.
* A conversion from `float64` to `int` whose value does not fit has an
  implementation-dependent result in Go; that result is the parameter `impl`.
* A run-time panic is `Except.error` with a `GoPanic`; a run of the pipe that a panic
  stops ends in `PipeEnd.panicked`.
* Goroutines and channels are sequentialised along the rendezvous they perform; each
  definition says which interleavings it covers.
-/

namespace Speed

/-! ## Machine arithmetic -/

/-- Run-time panics of the Go program that the embedding tracks. -/
inductive GoPanic where
  | indexOutOfRange (i : Int)
  | divideByZero
  | sliceBounds (k : Int)
  deriving DecidableEq, Repr

/-- Two's-complement wrap of a mathematical integer into the range of Go's 64-bit `int`. -/
def wrap64 (z : Int) : Int := (z + 2 ^ 63) % 2 ^ 64 - 2 ^ 63

/-- The conversion `float64(n)` of a non-negative integer: `n` rounded to 53 significant
bits, ties to the even significand.  Below `2^53` nothing is rounded. -/
def float64OfNat (n : Nat) : Nat :=
  let e := Nat.size n - 53
  let q := n / 2 ^ e
  let r := n % 2 ^ e
  if 2 * r < 2 ^ e then q * 2 ^ e
  else if 2 ^ e < 2 * r then (q + 1) * 2 ^ e
  else if q % 2 = 0 then q * 2 ^ e
  else (q + 1) * 2 ^ e

/-- The conversion `float64(z)` of an `int`; rounding is symmetric in the sign. -/
def float64OfInt (z : Int) : Int :=
  if z < 0 then -((float64OfNat z.natAbs : Nat) : Int) else ((float64OfNat z.natAbs : Nat) : Int)

/-- The conversion `int(f)` of an integer-valued `float64`: the value itself when it fits
in 64 bits, the implementation-dependent result `impl` when it does not. -/
def intOfFloat64 (impl : Int) (f : Int) : Int :=
  if -(2 ^ 63) ≤ f ∧ f < 2 ^ 63 then f else impl

/-! ## Binary prefixes -/

/-- The type `ByteSize` is a `float64`; every value the program stores in it is a
non-negative integer that `float64` represents exactly (`0`, `1` or a power of `1024`). -/
abbrev ByteSize := Nat

def KB : ByteSize := 2 ^ 10
def MB : ByteSize := 2 ^ 20
def GB : ByteSize := 2 ^ 30
def TB : ByteSize := 2 ^ 40
def PB : ByteSize := 2 ^ 50
def EB : ByteSize := 2 ^ 60
def ZB : ByteSize := 2 ^ 70
def YB : ByteSize := 2 ^ 80

/-- The map literal of `BinaryPrefixDict`, keyed by the prefix letter.  The entry for
`Z` holds `EB`, as in the source. -/
def prefixLetters : List (Char × ByteSize) :=
  [('K', KB), ('M', MB), ('G', GB), ('T', TB), ('P', PB), ('E', EB), ('Z', EB), ('Y', YB)]

/-- The lookup function returned by `BinaryPrefixDict()`.

The source fills the map with the eight letters, then ranges over the map inserting
`k+"i"` for every key `k` it meets, then sets `dict[""] = 1`.  Go may or may not visit an
entry inserted during the iteration, so besides `X` and `Xi` the map can hold `Xii`,
`Xiii`, ...: `revisits X` is the number of such extra entries for the letter `X`.  A key
that is absent yields the zero value `0`. -/
def BinaryPrefixDict (revisits : Char → Nat) (key : String) : ByteSize :=
  match key.data with
  | [] => 1
  | c :: rest =>
    match prefixLetters.lookup c with
    | some v =>
      if rest.all (fun x => x == 'i') && decide (rest.length ≤ 1 + revisits c) then v else 0
    | none => 0

/-- The conversion `int(b)` of a `ByteSize`: the value itself when it fits in 64 bits, the
implementation-dependent result `impl` when it does not. -/
def intOfByteSize (impl : Int) (b : ByteSize) : Int :=
  if b < 2 ^ 63 then (b : Int) else impl

/-- The slice `plist` of `inBynaryPrefix`. -/
def plist : List String := ["", "K", "M", "G", "T", "P", "E", "Z", "Y"]

/-- The `for i, p := range plist` loop of `inBynaryPrefix`, entered at index `i` with the
elements `ps` still to visit.  At a hit the source reads `plist[i-1]`; at `i = 0` that
index is `-1` and the program panics. -/
def inBynaryPrefixLoop (impl : Int) (revisits : Char → Nat) (d : Int) :
    Nat → List String → Except GoPanic (ℚ × String)
  | _, [] => .ok ((float64OfInt d : ℚ), "")
  | i, p :: ps =>
    if d < intOfByteSize impl (BinaryPrefixDict revisits p) then
      match i with
      | 0 => .error (.indexOutOfRange (-1))
      | j + 1 =>
        match plist[j]? with
        | some q => .ok ((float64OfInt d : ℚ) / (BinaryPrefixDict revisits q : ℚ), q)
        | none => .error (.indexOutOfRange j)
    else inBynaryPrefixLoop impl revisits d (i + 1) ps

/-- The function `inBynaryPrefix(d)`: the value scaled by the largest binary prefix not
above it, with that prefix. -/
def inBynaryPrefix (impl : Int) (revisits : Char → Nat) (d : Int) :
    Except GoPanic (ℚ × String) :=
  inBynaryPrefixLoop impl revisits d 0 plist

/-! ## Parsing a size -/

/-- The bracket expression `[[KMGTPEZY]` of the pattern: the character `[` and the eight
letters. -/
def unitClass : List Char := ['[', 'K', 'M', 'G', 'T', 'P', 'E', 'Z', 'Y']

/-- The second group of the pattern, `([[KMGTPEZY]i?]?)?`, matched at the front of the
input: one character of `unitClass`, an optional `i`, an optional literal `]`.  Returns the
captured text and the rest of the input; the capture is empty when the group does not
take part in the match. -/
def matchUnit : List Char → List Char × List Char
  | [] => ([], [])
  | c :: t =>
    if c ∈ unitClass then
      let (i, t1) := match t with
        | 'i' :: u => (['i'], u)
        | _ => ([], t)
      let (b, t2) := match t1 with
        | ']' :: u => ([']'], u)
        | _ => ([], t1)
      (c :: (i ++ b), t2)
    else ([], c :: t)

/-- The part `B?` of the pattern, matched at the front of the input: the rest of the
input after an optional `B`. -/
def matchB : List Char → List Char
  | 'B' :: u => u
  | r => r

/-- The call `bp_regex.FindAllStringSubmatch(bp, -1)` for the pattern
`^([\d]+)([[KMGTPEZY]i?]?)?B?$`.

The pattern is anchored at both ends and needs one digit, so there is at most one match,
and it spans the input; a match is the list `[whole, group 1, group 2]`.  Each choice of
the pattern is decided by the next character (a digit, a character of the class, `i`,
`]` and `B` exclude one another), so the greedy left-to-right reading below finds the
match whenever one exists; `FindAllStringSubmatch_iff_matches` checks it against the
language of the pattern. -/
def FindAllStringSubmatch (bp : String) : List (List String) :=
  let (ds, r1) := bp.data.span Char.isDigit
  if ds.isEmpty then []
  else
    let (unit, r2) := matchUnit r1
    let r3 := matchB r2
    if r3.isEmpty then [[bp, String.mk ds, String.mk unit]] else []

/-- The ten decimal digits, the class `[\d]`. -/
def digitClass : List Char := ['0', '1', '2', '3', '4', '5', '6', '7', '8', '9']

/-- A bracket expression: one character out of `cs`. -/
def oneOf (cs : List Char) : RegularExpression Char :=
  cs.foldr (fun c r => RegularExpression.char c + r) 0

/-- The operator `?`. -/
def optional (r : RegularExpression Char) : RegularExpression Char := 1 + r

/-- The pattern `^([\d]+)([[KMGTPEZY]i?]?)?B?$` as a regular expression for the whole
input, the groups left aside. -/
def bp_regex : RegularExpression Char :=
  oneOf digitClass * (oneOf digitClass).star
    * optional (oneOf unitClass * optional (RegularExpression.char 'i')
        * optional (RegularExpression.char ']'))
    * optional (RegularExpression.char 'B')

/-- The texts that the group `([[KMGTPEZY]i?]?)` matches. -/
def IsUnitText (u : List Char) : Prop :=
  ∃ c ∈ unitClass, u = [c] ∨ u = [c, 'i'] ∨ u = [c, ']'] ∨ u = [c, 'i', ']']

instance (u : List Char) : Decidable (IsUnitText u) := by
  unfold IsUnitText
  infer_instance

/-- The value of a string of decimal digits. -/
def decimalValue (ds : List Char) : Nat :=
  ds.foldl (fun a c => 10 * a + (c.toNat - 48)) 0

/-- The function `strconv.Atoi`: an optional sign and decimal digits, `none` (an error)
on any other text and on a value outside the 64-bit range. -/
def Atoi (s : String) : Option Int :=
  let (neg, body) := match s.data with
    | '-' :: t => (true, t)
    | '+' :: t => (false, t)
    | t => (false, t)
  if body.isEmpty || !body.all Char.isDigit then none
  else if neg then
    if decimalValue body ≤ 2 ^ 63 then some (-(decimalValue body : Int)) else none
  else
    if decimalValue body ≤ 2 ^ 63 - 1 then some (decimalValue body : Int) else none

/-- The two errors `parseBynaryPrefix` returns. -/
inductive ParseError where
  | parseString (bp : String)
  | convert (digits : String)
  deriving DecidableEq, Repr

/-- The function `parseBynaryPrefix(bp)`: the size in bytes a string such as `1KB` denotes. -/
def parseBynaryPrefix (impl : Int) (revisits : Char → Nat) (bp : String) :
    Except ParseError Int :=
  match FindAllStringSubmatch bp with
  | [] => .error (.parseString bp)
  | r0 :: _ =>
    match Atoi (r0.getD 1 "") with
    | none => .error (.convert (r0.getD 1 ""))
    | some i =>
      if r0.length > 2 then
        .ok (wrap64 (i * intOfByteSize impl (BinaryPrefixDict revisits (r0.getD 2 ""))))
      else .ok i

/-! ## The reader -/

/-- One byte of the stream. -/
abbrev Byte := Fin 256

/-- The constant `BUFSIZE`. -/
def BUFSIZE : Nat := 4096

/-- The struct `readbuf`: the number of bytes read and the buffer that holds them. -/
structure readbuf where
  length : Nat
  buf : List Byte
  deriving DecidableEq, Repr

/-- The error value of a `Read`: `io.EOF`, or any other error. -/
inductive ReadErr where
  | EOF
  | other (msg : String)
  deriving DecidableEq, Repr

/-- The result `(n, err)` of one `reader.Read(buf)`: the `n = data.length` bytes that the
call stored at the front of `buf`, and the error (`none` is `nil`).  The `bufio.Reader`
has the size of `buf`, so every call is one `Read` of the source. -/
structure ReadResult where
  data : List Byte
  err : Option ReadErr
  deriving DecidableEq, Repr

/-- How `read` ends: it returns, or it stops the process with `os.Exit(code)`. -/
inductive ReadExit where
  | returned
  | exit (code : Nat)
  deriving DecidableEq, Repr

/-- The function `read`, run on the results of the successive `Read` calls of the source;
a source whose list has run out is at end-of-source and answers `(0, io.EOF)`.

The result is the list of `readbuf` values sent on `rb`, in order, and the way the
function ends.  After each send the reader waits on `writing_done`, so the buffer is not
overwritten before the receiver has used it: the value sent is the buffer as the receiver
sees it. -/
def read (buf : List Byte) : List ReadResult → List readbuf × ReadExit
  | [] => ([], .returned)
  | r :: rest =>
    let n := r.data.length
    let buf1 := r.data ++ buf.drop n
    if n = 0 then ([], .returned)
    else if r.err = some .EOF then ([⟨n, buf1⟩], .returned)
    else if r.err ≠ none then ([], .exit 9)
    else
      let (cs, e) := read buf1 rest
      (⟨n, buf1⟩ :: cs, e)

/-! ## Options and slices -/

/-- The struct `option`. -/
structure option where
  speed : Int
  tty : String
  silent : Bool
  graph : Bool
  filename : String
  show_data : Bool
  deriving DecidableEq, Repr

/-- The slice expression `b[:k]`; it panics when `k` exceeds the slice.  The capacity of
the slice is taken to be its length. -/
def sliceTo (b : List Byte) (k : Int) : Except GoPanic (List Byte) :=
  if 0 ≤ k ∧ k ≤ b.length then .ok (b.take k.toNat) else .error (.sliceBounds k)

/-! ## The speed keeper -/

/-- The fields of `speedKeeper` that enter its computations. -/
structure speedKeeper where
  bytePerSec : Int
  size : Int
  current : Int
  deriving DecidableEq, Repr

/-- The function `NewSpeedKeeper`. -/
def NewSpeedKeeper (b : Int) (size : Int) : speedKeeper := ⟨b, size, 0⟩

/-- The time in nanoseconds that the goroutine of `killTime` sleeps, `0` when it does not
sleep; `elapsed` is `time.Since(sk.start)` in nanoseconds. -/
def speedKeeper.killTime (impl : Int) (sk : speedKeeper) (elapsed : Int) : Int :=
  if sk.bytePerSec > 0 then
    let ms := wrap64 (Int.tdiv (wrap64 (sk.current * 1000)) sk.bytePerSec)
    let target_duration := wrap64 (intOfFloat64 impl (float64OfInt ms) * 1000000)
    let current_duration := elapsed
    let wait := wrap64 (target_duration - current_duration)
    if wait > 0 then wait else 0
  else 0

/-- The function `currentSpeed`; `d` is `time.Since(sk.start)` in nanoseconds. -/
def speedKeeper.currentSpeed (sk : speedKeeper) (d : Int) : Int :=
  if d = 0 then 0 else wrap64 (Int.tdiv (wrap64 (sk.current * 1000000000)) d)

/-! ## The monitor -/

/-- What the monitor cannot compute itself: the number of columns `getWidth` reads from
the terminal, whether `os.Create` opens the display device, and the text that the verb
`%.1f` prints for a value. -/
structure Terminal where
  cols : Nat
  ttyOpens : Bool
  fmtF1 : ℚ → String

/-- One write to the display device: a formatted text or a chunk echoed with `%s`. -/
inductive TtyWrite where
  | text (s : String)
  | bytes (b : List Byte)
  deriving DecidableEq, Repr

/-- The number of bytes of a write. -/
def TtyWrite.size : TtyWrite → Nat
  | .text s => s.utf8ByteSize
  | .bytes b => b.length

/-- The number of bytes the display device receives from a list of writes. -/
def sinkBytes (ws : List TtyWrite) : Nat := (ws.map TtyWrite.size).sum

/-- The fields of `monitor` that enter its computations. -/
structure monitor where
  sk : speedKeeper
  mode : String
  show_data : Bool
  width : Int
  deriving DecidableEq, Repr

/-- The function `newMonitor`: the mode is the empty string. -/
def newMonitor (sk : speedKeeper) : monitor := ⟨sk, "", false, 0⟩

/-- The method `setMode`. -/
def monitor.setMode (mon : monitor) (mode : String) : monitor := { mon with mode := mode }

/-- The monitor as `limitedPipe` sets it up from the options: `silent` selects the mode
`silent`, then `graph` selects the mode `graph`. -/
def limitedPipeMonitor (opt : option) (size : Int) : monitor :=
  let mon := newMonitor (NewSpeedKeeper opt.speed size)
  let mon := if opt.silent = true then mon.setMode "silent" else mon
  let mon := if opt.graph = true then mon.setMode "graph" else mon
  { mon with show_data := opt.show_data }

/-- An event of the loop of `monitor.run`.  A progress request carries what the renderer
reads at that moment: the formatted time, the nanoseconds since the start and the value of
`sk.current`. -/
inductive MonitorEvent where
  | progress (now : String) (elapsed : Int) (current : Int)
  | data (buf : List Byte)
  deriving DecidableEq, Repr

/-- The verb `%3d`. -/
def fmt3d (z : Int) : String :=
  let s := toString z
  String.mk (List.replicate (3 - s.length) ' ') ++ s

/-- The percentage `p` of a progress line. -/
def percentText (size current : Int) : String :=
  if size > 0 then "(" ++ fmt3d (wrap64 (Int.tdiv (wrap64 (current * 100)) size)) ++ "%)" else ""

/-- The line of `standardProgress`. -/
def standardProgress (impl : Int) (revisits : Char → Nat) (term : Terminal) (mon : monitor)
    (now : String) (elapsed : Int) : Except GoPanic String :=
  match inBynaryPrefix impl revisits (mon.sk.currentSpeed elapsed) with
  | .error e => .error e
  | .ok (j, bp) =>
    .ok ("\r\x1b[K[" ++ now ++ "]\t" ++ toString mon.sk.current ++ "Bytes"
      ++ percentText mon.sk.size mon.sk.current ++ "\t@ " ++ term.fmtF1 j ++ bp ++ "Bps")

/-- The number of fill characters of the bar, `mon.sk.current*mon.width/mon.sk.size`. -/
def graphFillCount (current width size : Int) : Except GoPanic Int :=
  if size = 0 then .error .divideByZero
  else .ok (wrap64 (Int.tdiv (wrap64 (current * width)) size))

/-- The bar of `getGraphProgress`: `width` fill characters. -/
def graphBar (width : Int) : List Byte := List.replicate width.toNat 42

/-- The verb `%-Ns` applied to a part of the bar. -/
def fmtBar (width : Int) (b : List Byte) : String :=
  String.mk (b.map (fun _ => '*')) ++ String.mk (List.replicate (width.toNat - b.length) ' ')

/-- The line of the closure that `getGraphProgress` returns. -/
def graphProgress (impl : Int) (revisits : Char → Nat) (term : Terminal) (mon : monitor)
    (now : String) (elapsed : Int) : Except GoPanic String :=
  match inBynaryPrefix impl revisits (mon.sk.currentSpeed elapsed) with
  | .error e => .error e
  | .ok (j, bp) =>
    match graphFillCount mon.sk.current mon.width mon.sk.size with
    | .error e => .error e
    | .ok k =>
      match sliceTo (graphBar mon.width) k with
      | .error e => .error e
      | .ok b =>
        .ok ("\r\x1b[K[" ++ now ++ "]\t" ++ toString mon.sk.current ++ "Bytes"
          ++ percentText mon.sk.size mon.sk.current ++ "\t@ " ++ term.fmtF1 j ++ bp ++ "Bps"
          ++ "\t[" ++ fmtBar mon.width b ++ "]")

/-- A write to `mon.tty`; nothing reaches the device when it could not be opened. -/
def ttyWrite (term : Terminal) (w : TtyWrite) : List TtyWrite :=
  if term.ttyOpens then [w] else []

/-- The events of the loop of `monitor.run` for the renderer `pFunc`, then `endFunc` when
`ctx.Done()` is taken; the result is the list of writes to the display device. -/
def monitorLoop (term : Terminal) (pFunc : String → Int → Int → Except GoPanic String) :
    List MonitorEvent → Except GoPanic (List TtyWrite)
  | [] => .ok (ttyWrite term (.text "\n"))
  | .progress now elapsed current :: evs =>
    match pFunc now elapsed current with
    | .error e => .error e
    | .ok line => (monitorLoop term pFunc evs).map (fun ws => ttyWrite term (.text line) ++ ws)
  | .data buf :: evs =>
    (monitorLoop term pFunc evs).map (fun ws => ttyWrite term (.bytes buf) ++ ws)

/-- The method `monitor.run` on the events it receives before `ctx.Done()`: the writes to
the display device.  In the mode `silent` the four functions are empty; in the mode
`graph` the width is half the number of columns. -/
def monitor.run (impl : Int) (revisits : Char → Nat) (term : Terminal) (mon : monitor)
    (events : List MonitorEvent) : Except GoPanic (List TtyWrite) :=
  if mon.mode = "silent" then .ok []
  else if mon.mode = "graph" then
    monitorLoop term
      (fun now elapsed current =>
        graphProgress impl revisits term
          { mon with width := (term.cols / 2 : Nat), sk := { mon.sk with current := current } }
          now elapsed)
      events
  else
    monitorLoop term
      (fun now elapsed current =>
        standardProgress impl revisits term { mon with sk := { mon.sk with current := current } }
          now elapsed)
      events

/-! ## The pipe -/

/-- The clock as a renderer reads it: the formatted time of `time.Now()` and the
nanoseconds of `time.Since(sk.start)`. -/
structure Stamp where
  now : String
  elapsed : Int
  deriving DecidableEq, Repr

/-- The case that one `select` of the loop `L` of `limitedPipe` takes.  A case that sends
on `mon.progress` carries the clock that the renderer reads. -/
inductive SelectCase where
  | rb (c : readbuf)
  | tick (t : Stamp)
  | reading_done (t : Stamp)
  | ctx_done
  deriving DecidableEq, Repr

/-- What `limitedPipe` and its goroutines have done so far: the bytes written to `out`, the
counter `readBytes`, the chunks sent on `mon.data`, the number of messages on
`mon.progress`, the values sent on `sk.curchan`, the number of signals on
`writing_done`, whether `cancel()` was called, and the writes of the monitor to the
display device. -/
structure PipeState where
  out : List Byte
  readBytes : Int
  monData : List (List Byte)
  monProgress : Nat
  curchan : List Int
  writing_done : Nat
  cancelled : Bool
  display : List TtyWrite
  deriving DecidableEq, Repr

/-- The state on entry to the loop. -/
def PipeState.init : PipeState := ⟨[], 0, [], 0, [], 0, false, []⟩

/-- How a run ends, with the state reached: `limitedPipe` returns; a goroutine panics,
which stops the process; the reader stops the process with `os.Exit`; or the loop waits in
its `select` with no case left to take. -/
inductive PipeEnd where
  | finished (s : PipeState)
  | panicked (p : GoPanic) (s : PipeState)
  | exited (code : Nat) (s : PipeState)
  | waiting (s : PipeState)
  deriving DecidableEq, Repr

/-- The function `pFunc` that `monitor.run` selects for the mode, called on a message of
`mon.progress`: the writes to the display device, or the panic of the renderer. -/
def monitor.render (impl : Int) (revisits : Char → Nat) (term : Terminal) (mon : monitor)
    (t : Stamp) (current : Int) : Except GoPanic (List TtyWrite) :=
  if mon.mode = "silent" then .ok []
  else if mon.mode = "graph" then
    (graphProgress impl revisits term
      { mon with width := (term.cols / 2 : Nat), sk := { mon.sk with current := current } }
      t.now t.elapsed).map (fun line => ttyWrite term (.text line))
  else
    (standardProgress impl revisits term { mon with sk := { mon.sk with current := current } }
      t.now t.elapsed).map (fun line => ttyWrite term (.text line))

/-- The function `showFunc` that `monitor.run` selects for the mode, called on a message
of `mon.data`. -/
def monitor.show (term : Terminal) (mon : monitor) (buf : List Byte) : List TtyWrite :=
  if mon.mode = "silent" then [] else ttyWrite term (.bytes buf)

/-- The function `endFunc` that `monitor.run` selects for the mode, called when
`ctx.Done()` is taken. -/
def monitor.finish (term : Terminal) (mon : monitor) : List TtyWrite :=
  if mon.mode = "silent" then [] else ttyWrite term (.text "\n")

/-- The loop `L` of `limitedPipe` over the cases its `select` takes, in order, together
with the goroutines it feeds.

* A chunk is written to `out`, echoed by the monitor when `show_data` is set, and its
  cumulative count is sent to the speed keeper, which stores it in `sk.current`; so
  `sk.current` is `readBytes` whenever a renderer reads it.  The wait `<-sk.killTime()`
  that ends the case changes no state.
* A tick, and the end of reading, send on `mon.progress`; the monitor then calls its
  renderer, taken here to run as soon as the message is received.  A panic of the
  renderer stops the process in the state reached.
* Leaving the loop follows `cancel()`, on which the monitor calls `endFunc`. -/
def limitedPipeLoop (impl : Int) (revisits : Char → Nat) (term : Terminal) (mon : monitor)
    (opt : option) : PipeState → List SelectCase → PipeEnd
  | s, [] => .waiting s
  | s, .rb c :: evs =>
    if c.length = 0 then limitedPipeLoop impl revisits term mon opt s evs
    else
      match sliceTo c.buf c.length with
      | .error e => .panicked e s
      | .ok chunk =>
        let readBytes := wrap64 (s.readBytes + c.length)
        limitedPipeLoop impl revisits term mon opt
          { s with
            out := s.out ++ chunk
            readBytes := readBytes
            monData := if opt.show_data then s.monData ++ [chunk] else s.monData
            display := if opt.show_data then s.display ++ mon.show term chunk else s.display
            curchan := s.curchan ++ [readBytes]
            writing_done := s.writing_done + 1 } evs
  | s, .tick t :: evs =>
    match mon.render impl revisits term t s.readBytes with
    | .error e => .panicked e { s with monProgress := s.monProgress + 1 }
    | .ok ws =>
      limitedPipeLoop impl revisits term mon opt
        { s with monProgress := s.monProgress + 1, display := s.display ++ ws } evs
  | s, .reading_done t :: _ =>
    match mon.render impl revisits term t s.readBytes with
    | .error e => .panicked e { s with monProgress := s.monProgress + 1 }
    | .ok ws =>
      .finished { s with
        monProgress := s.monProgress + 1
        cancelled := true
        display := s.display ++ ws ++ mon.finish term }
  | s, .ctx_done :: _ => .finished { s with display := s.display ++ mon.finish term }

/-- The cases the `select` takes while the reader runs: the chunks in the order they are
sent on the unbuffered channel `rbchan`, with the ticks of the 50 ms ticker stamped
`ticks.headD []` before the first chunk, the next group of `ticks` before the second, and
so on, and a last group of ticks after the last chunk. -/
def schedule : List (List Stamp) → List readbuf → List SelectCase
  | ticks, [] => (ticks.headD []).map SelectCase.tick
  | ticks, c :: cs =>
    (ticks.headD []).map SelectCase.tick ++ SelectCase.rb c :: schedule ticks.tail cs

/-- A run of `limitedPipe(in, out, size, option)` on a source that answers the successive
reads with `src`, under the ticks `ticks`, with the clock `final` at the end of reading.
The monitor is set up from the options.  The reader goroutine starts with a zeroed buffer
of `BUFSIZE` bytes.  When it returns it signals `reading_done`, which the loop takes after
the last chunk; when it calls `os.Exit` the process stops after the cases taken until then.
`cancel()` is called in the `reading_done` case only, so `ctx.Done()` is not taken before. -/
def limitedPipe (impl : Int) (revisits : Char → Nat) (term : Terminal) (opt : option)
    (size : Int) (ticks : List (List Stamp)) (final : Stamp) (src : List ReadResult) : PipeEnd :=
  let mon := limitedPipeMonitor opt size
  let (cs, e) := read (List.replicate BUFSIZE 0) src
  match e with
  | .returned =>
    limitedPipeLoop impl revisits term mon opt PipeState.init
      (schedule ticks cs ++ [SelectCase.reading_done final])
  | .exit code =>
    match limitedPipeLoop impl revisits term mon opt PipeState.init (schedule ticks cs) with
    | .waiting s => .exited code s
    | r => r

/-- A source that answers the successive reads with the byte strings `body`, each without
an error, and then reports end-of-source together with the bytes `last`; `last` is empty
when end-of-source comes with a read of no bytes. -/
def delivery (body : List (List Byte)) (last : List Byte) : List ReadResult :=
  body.map (fun d => ⟨d, none⟩) ++ [⟨last, some .EOF⟩]

/-! ## Lemmas on the machine arithmetic -/

theorem wrap64_of_inRange (z : Int) (h1 : -(2 ^ 63) ≤ z) (h2 : z < 2 ^ 63) : wrap64 z = z := by
  unfold wrap64
  norm_num at h1 h2 ⊢
  omega

theorem size_of_bounds (n k : Nat) (h1 : 2 ^ k ≤ n) (h2 : n < 2 ^ (k + 1)) :
    Nat.size n = k + 1 := by
  apply le_antisymm
  · exact Nat.size_le.mpr h2
  · exact Nat.lt_size.mpr h1

theorem float64OfNat_exact (n : Nat) (h : n < 2 ^ 53) : float64OfNat n = n := by
  have hs : Nat.size n - 53 = 0 := by
    have := Nat.size_le.mpr h
    omega
  simp [float64OfNat, hs, Nat.mod_one]

theorem float64OfInt_exact (z : Int) (h0 : 0 ≤ z) (h : z < 2 ^ 53) : float64OfInt z = z := by
  unfold float64OfInt
  have hn : z.natAbs < 2 ^ 53 := by
    norm_num at h ⊢
    omega
  rw [float64OfNat_exact _ hn]
  have : ¬ z < 0 := by omega
  simp [this]
  omega

theorem tdiv_bounds (a b : Int) (ha : 0 ≤ a) (hb : 0 ≤ b) :
    0 ≤ Int.tdiv a b ∧ Int.tdiv a b ≤ a := by
  refine ⟨Int.tdiv_nonneg ha hb, ?_⟩
  rw [Int.tdiv_eq_ediv ha hb]
  exact Int.ediv_le_self b ha

/-! ## The speed keeper: `currentSpeed` -/

/-- C3, amended: while `transferred * 10^9` fits in 64 bits, `currentSpeed` is `0` at
`d = 0` and the truncated quotient `transferred * 10^9 / d` at `d > 0`, and it is not
negative. -/
theorem currentSpeed_exact (b size current d : Int) (hc : 0 ≤ current)
    (hfit : current * 1000000000 ≤ 2 ^ 63 - 1) (hd : 0 ≤ d) :
    speedKeeper.currentSpeed ⟨b, size, current⟩ d
        = (if d = 0 then 0 else Int.tdiv (current * 1000000000) d)
      ∧ 0 ≤ speedKeeper.currentSpeed ⟨b, size, current⟩ d := by
  unfold speedKeeper.currentSpeed
  by_cases h0 : d = 0
  · simp [h0]
  · simp only [h0, if_false]
    have hw : wrap64 (current * 1000000000) = current * 1000000000 := by
      apply wrap64_of_inRange
      · norm_num; omega
      · norm_num at hfit ⊢; omega
    rw [hw]
    obtain ⟨hq0, hq1⟩ := tdiv_bounds (current * 1000000000) d (by omega) hd
    have hw2 : wrap64 (Int.tdiv (current * 1000000000) d) = Int.tdiv (current * 1000000000) d := by
      apply wrap64_of_inRange
      · norm_num; omega
      · norm_num at hfit ⊢; omega
    rw [hw2]
    exact ⟨rfl, hq0⟩

/-- C3, witness: 5000 bytes after two seconds. -/
theorem currentSpeed_exact_witness :
    speedKeeper.currentSpeed ⟨0, 0, 5000⟩ 2000000000
        = (if (2000000000 : Int) = 0 then 0 else Int.tdiv (5000 * 1000000000) 2000000000)
      ∧ 0 ≤ speedKeeper.currentSpeed ⟨0, 0, 5000⟩ 2000000000 :=
  currentSpeed_exact 0 0 5000 2000000000 (by decide) (by decide) (by decide)

/-- C3, counterexample: with `10^10` bytes transferred after 100 seconds the product
`transferred * 10^9` wraps, and `currentSpeed` is `-84467440`, not the quotient `10^8`. -/
theorem currentSpeed_counterexample :
    speedKeeper.currentSpeed ⟨0, 0, 10000000000⟩ 100000000000 = -84467440
      ∧ Int.tdiv (10000000000 * 1000000000) 100000000000 = 100000000
      ∧ ¬ (0 ≤ speedKeeper.currentSpeed ⟨0, 0, 10000000000⟩ 100000000000) := by
  decide

/-! ## The graph bar -/

/-- C10, amended: for a width `w ≥ 0`, a size `> 0` and `0 ≤ transferred ≤ size` with
`transferred * w` within 64 bits, the fill count is `transferred * w / size`, lies in
`0..w`, the slice `bar[:count]` is in bounds, and the count is `w` at
`transferred = size`. -/
theorem graphFillCount_inBounds (w size current : Int) (hw : 0 ≤ w) (hs : 0 < size)
    (hc0 : 0 ≤ current) (hc : current ≤ size) (hfit : current * w ≤ 2 ^ 63 - 1) :
    graphFillCount current w size = .ok (Int.tdiv (current * w) size)
      ∧ 0 ≤ Int.tdiv (current * w) size ∧ Int.tdiv (current * w) size ≤ w
      ∧ sliceTo (graphBar w) (Int.tdiv (current * w) size)
          = .ok (List.replicate (Int.tdiv (current * w) size).toNat 42)
      ∧ (current = size → Int.tdiv (current * w) size = w) := by
  have hcw : 0 ≤ current * w := Int.mul_nonneg hc0 hw
  obtain ⟨hq0, hq1⟩ := tdiv_bounds (current * w) size hcw (le_of_lt hs)
  have hqw : Int.tdiv (current * w) size ≤ w := by
    rw [Int.tdiv_eq_ediv hcw (le_of_lt hs)]
    have h1 : current * w ≤ w * size := by nlinarith
    calc current * w / size ≤ (w * size) / size := Int.ediv_le_ediv hs h1
      _ = w := Int.mul_ediv_cancel w (ne_of_gt hs)
  have hw1 : wrap64 (current * w) = current * w := by
    apply wrap64_of_inRange
    · norm_num; omega
    · norm_num at hfit ⊢; omega
  have hw2 : wrap64 (Int.tdiv (current * w) size) = Int.tdiv (current * w) size := by
    apply wrap64_of_inRange
    · norm_num; omega
    · norm_num at hfit ⊢; omega
  refine ⟨?_, hq0, hqw, ?_, ?_⟩
  · simp [graphFillCount, ne_of_gt hs, hw1, hw2]
  · have hlen : ((Int.tdiv (current * w) size) ≤ ((graphBar w).length : Int)) := by
      simp [graphBar]; omega
    simp only [sliceTo, hq0, hlen, and_self, if_true]
    simp [graphBar, List.take_replicate]
    omega
  · intro h
    subst h
    rw [mul_comm]
    exact Int.mul_tdiv_cancel w (ne_of_gt hs)

/-- C10, witness: half of 100 bytes on a bar of 40 characters. -/
theorem graphFillCount_inBounds_witness :
    graphFillCount 50 40 100 = .ok (Int.tdiv (50 * 40) 100)
      ∧ 0 ≤ Int.tdiv (50 * 40) 100 ∧ Int.tdiv (50 * 40) 100 ≤ 40
      ∧ sliceTo (graphBar 40) (Int.tdiv (50 * 40) 100)
          = .ok (List.replicate (Int.tdiv (50 * 40) 100).toNat 42)
      ∧ ((50 : Int) = 100 → Int.tdiv (50 * 40) 100 = 40) :=
  graphFillCount_inBounds 40 100 50 (by decide) (by decide) (by decide) (by decide) (by decide)

/-- C10, counterexample: at width 100 with `10^17` of `10^17` bytes transferred the
product wraps, the fill count is `-84`, and the slice `bar[:-84]` panics. -/
theorem graphFillCount_counterexample :
    graphFillCount 100000000000000000 100 100000000000000000 = .ok (-84)
      ∧ sliceTo (graphBar 100) (-84) = .error (.sliceBounds (-84)) := by
  constructor <;> rfl

/-! ## The speed keeper: `killTime` -/

/-- C2, amended: the time slept is `0` at rate `0`, and otherwise `max(0, targetDuration -
elapsed)` with `targetDuration = transferred * 1000 / rate` milliseconds, provided that
at a positive rate `transferred * 1000` and `targetDuration` in nanoseconds fit in 64
bits; it is never negative, and `0` when `elapsed ≥ targetDuration`. -/
theorem killTime_exact (impl b size current elapsed : Int) (hc : 0 ≤ current)
    (he0 : 0 ≤ elapsed) (he : elapsed ≤ 2 ^ 63 - 1)
    (hfit1 : 0 < b → current * 1000 ≤ 2 ^ 63 - 1)
    (hfit2 : 0 < b → Int.tdiv (current * 1000) b * 1000000 ≤ 2 ^ 63 - 1) :
    speedKeeper.killTime impl ⟨b, size, current⟩ elapsed
        = (if b = 0 then 0 else max 0 (Int.tdiv (current * 1000) b * 1000000 - elapsed))
      ∧ 0 ≤ speedKeeper.killTime impl ⟨b, size, current⟩ elapsed
      ∧ (Int.tdiv (current * 1000) b * 1000000 ≤ elapsed
          → speedKeeper.killTime impl ⟨b, size, current⟩ elapsed = 0) := by
  have hc1 : 0 ≤ current * 1000 := by omega
  rcases lt_trichotomy b 0 with hb | hb | hb
  · -- a negative rate: no sleep, and the target duration is not positive
    have hq : Int.tdiv (current * 1000) b ≤ 0 := by
      have h1 : Int.tdiv (current * 1000) (-b) = -Int.tdiv (current * 1000) b := Int.tdiv_neg _ _
      have h2 := (tdiv_bounds (current * 1000) (-b) hc1 (by omega)).1
      omega
    have hk : speedKeeper.killTime impl ⟨b, size, current⟩ elapsed = 0 := by
      simp [speedKeeper.killTime, not_lt.mpr (le_of_lt hb)]
    rw [hk]
    refine ⟨?_, le_refl 0, fun _ => rfl⟩
    rw [if_neg (ne_of_lt hb)]
    have : Int.tdiv (current * 1000) b * 1000000 - elapsed ≤ 0 := by omega
    exact (max_eq_left this).symm
  · subst hb
    simp [speedKeeper.killTime]
  · have h1 := hfit1 hb
    have h2 := hfit2 hb
    obtain ⟨hq0, hq1⟩ := tdiv_bounds (current * 1000) b hc1 (le_of_lt hb)
    norm_num at h1 h2 he
    have hw1 : wrap64 (current * 1000) = current * 1000 := by
      apply wrap64_of_inRange
      · norm_num; omega
      · norm_num; omega
    have hw2 : wrap64 (Int.tdiv (current * 1000) b) = Int.tdiv (current * 1000) b := by
      apply wrap64_of_inRange
      · norm_num; omega
      · norm_num; omega
    have hf : float64OfInt (Int.tdiv (current * 1000) b) = Int.tdiv (current * 1000) b := by
      apply float64OfInt_exact _ hq0
      norm_num; omega
    have hi : intOfFloat64 impl (Int.tdiv (current * 1000) b) = Int.tdiv (current * 1000) b := by
      unfold intOfFloat64
      rw [if_pos]
      norm_num; omega
    have hw3 : wrap64 (Int.tdiv (current * 1000) b * 1000000)
        = Int.tdiv (current * 1000) b * 1000000 := by
      apply wrap64_of_inRange
      · norm_num; omega
      · norm_num; omega
    have hw4 : wrap64 (Int.tdiv (current * 1000) b * 1000000 - elapsed)
        = Int.tdiv (current * 1000) b * 1000000 - elapsed := by
      apply wrap64_of_inRange
      · norm_num; omega
      · norm_num; omega
    have hk : speedKeeper.killTime impl ⟨b, size, current⟩ elapsed
        = max 0 (Int.tdiv (current * 1000) b * 1000000 - elapsed) := by
      simp only [speedKeeper.killTime, hb, if_true, gt_iff_lt, hw1, hw2, hf, hi, hw3, hw4]
      by_cases hpos : 0 < Int.tdiv (current * 1000) b * 1000000 - elapsed
      · rw [if_pos hpos, max_eq_right (le_of_lt hpos)]
      · rw [if_neg hpos, max_eq_left (not_lt.mp hpos)]
    rw [hk, if_neg (ne_of_gt hb)]
    refine ⟨rfl, le_max_left _ _, fun h => max_eq_left (by omega)⟩

/-- C2, witness: 5000 bytes at 1000 bytes per second after one second sleep four seconds. -/
theorem killTime_exact_witness :
    speedKeeper.killTime 0 ⟨1000, 0, 5000⟩ 1000000000
        = (if (1000 : Int) = 0 then 0
            else max 0 (Int.tdiv (5000 * 1000) 1000 * 1000000 - 1000000000))
      ∧ 0 ≤ speedKeeper.killTime 0 ⟨1000, 0, 5000⟩ 1000000000
      ∧ (Int.tdiv (5000 * 1000) 1000 * 1000000 ≤ 1000000000
          → speedKeeper.killTime 0 ⟨1000, 0, 5000⟩ 1000000000 = 0) :=
  killTime_exact 0 1000 0 5000 1000000000 (by decide) (by decide) (by decide)
    (fun _ => by decide) (fun _ => by decide)

/-- C2, counterexample: at one byte per second with `10^10` bytes transferred and no time
elapsed, the target duration `10^13 ms` does not fit in the 64-bit nanosecond count: it
wraps to a negative duration and nothing is slept, where the claim gives `10^19 ns`. -/
theorem killTime_counterexample :
    speedKeeper.killTime 0 ⟨1, 0, 10000000000⟩ 0 = 0
      ∧ max 0 (Int.tdiv (10000000000 * 1000) 1 * 1000000 - 0) = 10000000000000000000 := by
  have hf : float64OfInt 10000000000000 = 10000000000000 :=
    float64OfInt_exact 10000000000000 (by decide) (by decide)
  refine ⟨?_, by decide⟩
  have h1 : wrap64 (Int.tdiv (wrap64 (10000000000 * 1000)) 1) = 10000000000000 := by decide
  simp only [speedKeeper.killTime, h1, hf]
  decide

/-! ## `inBynaryPrefix` at zero -/

/-- On `1 ≤ d < 1024` the function returns the value `d` with the empty prefix. -/
theorem inBynaryPrefix_small (impl : Int) (revisits : Char → Nat) (d : Int) (h1 : 1 ≤ d)
    (h2 : d < 1024) : inBynaryPrefix impl revisits d = .ok ((d : ℚ), "") := by
  have h0 : ¬ d < 1 := by omega
  have hf : float64OfInt d = d := float64OfInt_exact d (by omega) (by norm_num; omega)
  simp [inBynaryPrefix, inBynaryPrefixLoop, plist, BinaryPrefixDict, intOfByteSize,
    prefixLetters, List.lookup, KB, h0, h2, hf]

/-- C4, at the failing input: `inBynaryPrefix(0)` does not return `(0, "")`; the first
element of `plist` already satisfies `d < 1`, and the index `i-1 = -1` panics.  A progress
line rendered at speed 0 panics with it. -/
theorem inBynaryPrefix_zero_panics (impl : Int) (revisits : Char → Nat) (term : Terminal)
    (mon : monitor) (now : String) :
    inBynaryPrefix impl revisits 0 = .error (.indexOutOfRange (-1))
      ∧ standardProgress impl revisits term mon now 0 = .error (.indexOutOfRange (-1)) := by
  have h : inBynaryPrefix impl revisits 0 = .error (.indexOutOfRange (-1)) := by
    simp [inBynaryPrefix, inBynaryPrefixLoop, plist, BinaryPrefixDict, intOfByteSize]
  refine ⟨h, ?_⟩
  have h0 : mon.sk.currentSpeed 0 = 0 := by simp [speedKeeper.currentSpeed]
  unfold standardProgress
  rw [h0, h]

/-! ## The silent option -/

/-- C9, amended: with `silent` set and `graph` not set, whatever `show_data` is, the
monitor runs in the mode `silent`, and no event writes to the display device. -/
theorem silent_without_graph_writes_nothing (opt : option) (size : Int) (impl : Int)
    (revisits : Char → Nat) (term : Terminal) (events : List MonitorEvent)
    (hs : opt.silent = true) (hg : opt.graph = false) :
    (limitedPipeMonitor opt size).mode = "silent"
      ∧ monitor.run impl revisits term (limitedPipeMonitor opt size) events = .ok []
      ∧ sinkBytes [] = 0 := by
  have hm : (limitedPipeMonitor opt size).mode = "silent" := by
    simp [limitedPipeMonitor, hs, hg, monitor.setMode]
  refine ⟨hm, ?_, rfl⟩
  simp [monitor.run, hm]

/-- C9, witness: `-s -a` on a file. -/
theorem silent_without_graph_writes_nothing_witness :
    (limitedPipeMonitor ⟨0, "/dev/tty", true, false, "f", true⟩ 100).mode = "silent"
      ∧ monitor.run 0 (fun _ => 0) ⟨80, true, fun _ => ""⟩
          (limitedPipeMonitor ⟨0, "/dev/tty", true, false, "f", true⟩ 100)
          [.progress "t" 1 0, .data [1, 2]] = .ok []
      ∧ sinkBytes [] = 0 :=
  silent_without_graph_writes_nothing ⟨0, "/dev/tty", true, false, "f", true⟩ 100 0 (fun _ => 0)
    ⟨80, true, fun _ => ""⟩ [.progress "t" 1 0, .data [1, 2]] rfl rfl

/-- C9, counterexample: with `silent` and `graph` both set the monitor runs in the mode
`graph`, and the end of the stream writes a newline, one byte, to the display device. -/
theorem silent_with_graph_counterexample :
    (limitedPipeMonitor ⟨0, "/dev/tty", true, true, "f", false⟩ 100).mode = "graph"
      ∧ monitor.run 0 (fun _ => 0) ⟨80, true, fun _ => ""⟩
          (limitedPipeMonitor ⟨0, "/dev/tty", true, true, "f", false⟩ 100) []
          = .ok [.text "\n"]
      ∧ sinkBytes [.text "\n"] = 1 := by
  refine ⟨rfl, ?_, ?_⟩
  · simp [monitor.run, limitedPipeMonitor, monitor.setMode, newMonitor, monitorLoop, ttyWrite]
  · decide

/-! ## Lemmas on the prefix dictionary -/

theorem dict_empty (r : Char → Nat) : BinaryPrefixDict r "" = 1 := by
  simp [BinaryPrefixDict]

theorem dict_K (r : Char → Nat) : BinaryPrefixDict r "K" = 1024 := by
  simp [BinaryPrefixDict, prefixLetters, List.lookup, KB]

theorem dict_M (r : Char → Nat) : BinaryPrefixDict r "M" = 1024 ^ 2 := by
  simp [BinaryPrefixDict, prefixLetters, List.lookup, MB]

theorem dict_G (r : Char → Nat) : BinaryPrefixDict r "G" = 1024 ^ 3 := by
  simp [BinaryPrefixDict, prefixLetters, List.lookup, GB]

theorem dict_T (r : Char → Nat) : BinaryPrefixDict r "T" = 1024 ^ 4 := by
  simp [BinaryPrefixDict, prefixLetters, List.lookup, TB]

theorem dict_P (r : Char → Nat) : BinaryPrefixDict r "P" = 1024 ^ 5 := by
  simp [BinaryPrefixDict, prefixLetters, List.lookup, PB]

theorem dict_E (r : Char → Nat) : BinaryPrefixDict r "E" = 1024 ^ 6 := by
  simp [BinaryPrefixDict, prefixLetters, List.lookup, EB]

theorem inBynaryPrefix_hit (impl : Int) (r : Char → Nat) (d : Int) (k : Nat) (hk : k ≤ 5)
    (hlo : (1024 : Int) ^ k ≤ d) (hhi : d < 1024 ^ (k + 1)) :
    inBynaryPrefix impl r d
      = .ok ((float64OfInt d : ℚ) / (1024 : ℚ) ^ k,
          ["", "K", "M", "G", "T", "P"].getD k "") := by
  interval_cases k <;> norm_num at hlo hhi <;>
    simp [inBynaryPrefix, inBynaryPrefixLoop, plist, dict_empty, dict_K, dict_M, dict_G, dict_T,
      dict_P, dict_E, intOfByteSize] <;>
    (try rw [if_neg (show ¬ d < 1 by omega)]) <;>
    (try rw [if_neg (show ¬ d < 1024 by omega)]) <;>
    (try rw [if_neg (show ¬ d < 1048576 by omega)]) <;>
    (try rw [if_neg (show ¬ d < 1073741824 by omega)]) <;>
    (try rw [if_neg (show ¬ d < 1099511627776 by omega)]) <;>
    (try rw [if_neg (show ¬ d < 1125899906842624 by omega)]) <;>
    rw [if_pos hhi] <;> (try norm_num)
/-! ## Lemmas on the rounding of `float64` -/

theorem float64OfNat_cases (n : Nat) :
    float64OfNat n = n / 2 ^ (Nat.size n - 53) * 2 ^ (Nat.size n - 53)
      ∨ float64OfNat n = (n / 2 ^ (Nat.size n - 53) + 1) * 2 ^ (Nat.size n - 53) := by
  unfold float64OfNat
  simp only
  split_ifs <;> simp

theorem float64OfNat_le_pow (n m : Nat) (h : n < 2 ^ m) : float64OfNat n ≤ 2 ^ m := by
  by_cases h53 : n < 2 ^ 53
  · rw [float64OfNat_exact n h53]
    exact le_of_lt h
  · have hs : 53 < Nat.size n := Nat.lt_size.mpr (not_lt.mp h53)
    have hsm : Nat.size n ≤ m := Nat.size_le.mpr h
    have hq : n / 2 ^ (Nat.size n - 53) < 2 ^ 53 := by
      apply Nat.div_lt_of_lt_mul
      rw [← pow_add]
      have : Nat.size n - 53 + 53 = Nat.size n := by omega
      rw [this]
      exact Nat.lt_size_self n
    have hup : (n / 2 ^ (Nat.size n - 53) + 1) * 2 ^ (Nat.size n - 53) ≤ 2 ^ m := by
      calc (n / 2 ^ (Nat.size n - 53) + 1) * 2 ^ (Nat.size n - 53)
          ≤ 2 ^ 53 * 2 ^ (Nat.size n - 53) := Nat.mul_le_mul_right _ hq
        _ = 2 ^ Nat.size n := by
          rw [← pow_add]
          congr 1
          omega
        _ ≤ 2 ^ m := Nat.pow_le_pow_right (by norm_num) hsm
    rcases float64OfNat_cases n with hc | hc
    · rw [hc]
      exact le_trans (Nat.mul_le_mul_right _ (Nat.le_succ _)) hup
    · rw [hc]
      exact hup

theorem float64OfNat_ge_pow (n m : Nat) (h : 2 ^ m ≤ n) : 2 ^ m ≤ float64OfNat n := by
  by_cases h53 : n < 2 ^ 53
  · rw [float64OfNat_exact n h53]
    exact h
  · have hs : 53 < Nat.size n := Nat.lt_size.mpr (not_lt.mp h53)
    have hms : m < Nat.size n := Nat.lt_size.mpr h
    have hn : 2 ^ (Nat.size n - 1) ≤ n := Nat.lt_size.mp (by omega)
    have hq : 2 ^ 52 ≤ n / 2 ^ (Nat.size n - 53) := by
      rw [Nat.le_div_iff_mul_le (by positivity)]
      rw [← pow_add]
      have : 52 + (Nat.size n - 53) = Nat.size n - 1 := by omega
      rw [this]
      exact hn
    have hlo : 2 ^ m ≤ n / 2 ^ (Nat.size n - 53) * 2 ^ (Nat.size n - 53) := by
      calc 2 ^ m ≤ 2 ^ (Nat.size n - 1) := Nat.pow_le_pow_right (by norm_num) (by omega)
        _ = 2 ^ 52 * 2 ^ (Nat.size n - 53) := by
          rw [← pow_add]
          congr 1
          omega
        _ ≤ n / 2 ^ (Nat.size n - 53) * 2 ^ (Nat.size n - 53) := Nat.mul_le_mul_right _ hq
    rcases float64OfNat_cases n with hc | hc
    · rw [hc]
      exact hlo
    · rw [hc]
      exact le_trans hlo (Nat.mul_le_mul_right _ (Nat.le_succ _))

theorem float64OfInt_of_nonneg (d : Int) (h : 0 ≤ d) :
    float64OfInt d = ((float64OfNat d.toNat : Nat) : Int) := by
  unfold float64OfInt
  rw [if_neg (not_lt.mpr h)]
  congr 2
  omega

theorem float64OfInt_bounds (d : Int) (m M : Nat) (hlo : (2 : Int) ^ m ≤ d) (hhi : d < 2 ^ M) :
    (2 : Int) ^ m ≤ float64OfInt d ∧ float64OfInt d ≤ 2 ^ M := by
  have h0 : 0 ≤ d := le_trans (by positivity) hlo
  rw [float64OfInt_of_nonneg d h0]
  have h1 : 2 ^ m ≤ d.toNat := by
    have : ((2 ^ m : Nat) : Int) ≤ d := by push_cast; exact hlo
    omega
  have h2 : d.toNat < 2 ^ M := by
    have : d < ((2 ^ M : Nat) : Int) := by push_cast; exact hhi
    omega
  constructor
  · exact_mod_cast float64OfNat_ge_pow _ _ h1
  · exact_mod_cast float64OfNat_le_pow _ _ h2
/-! ## `inBynaryPrefix` on `1 ≤ d < 2^60` -/

theorem pow1024_eq (k : Nat) : (1024 : Int) ^ k = 2 ^ (10 * k) := by
  rw [pow_mul]
  norm_num

/-- C5, amended: for `1 ≤ d < 2^60` there is exactly one `k` in `0..5` with
`1024^k ≤ d < 1024^(k+1)`, and `inBynaryPrefix(d)` returns the `k`-th prefix with the value
`float64(d) / 1024^k`, where `float64(d)` is `d` rounded to 53 significant bits.  The value
lies in `1..1024`, both ends included; for `d < 2^53` nothing is rounded, the value is
`d / 1024^k` and is below `1024`. -/
theorem inBynaryPrefix_scaling (impl : Int) (r : Char → Nat) (d : Int) (h1 : 1 ≤ d)
    (h2 : d < 2 ^ 60) :
    ∃ k : Nat, k ≤ 5 ∧ (1024 : Int) ^ k ≤ d ∧ d < 1024 ^ (k + 1)
      ∧ (∀ j : Nat, (1024 : Int) ^ j ≤ d → d < 1024 ^ (j + 1) → j = k)
      ∧ inBynaryPrefix impl r d
          = .ok ((float64OfInt d : ℚ) / 1024 ^ k, ["", "K", "M", "G", "T", "P"].getD k "")
      ∧ 1 ≤ (float64OfInt d : ℚ) / 1024 ^ k
      ∧ (float64OfInt d : ℚ) / 1024 ^ k ≤ 1024
      ∧ (d < 2 ^ 53 → (float64OfInt d : ℚ) / 1024 ^ k = (d : ℚ) / 1024 ^ k
            ∧ (float64OfInt d : ℚ) / 1024 ^ k < 1024) := by
  have hk : ∃ k : Nat, k ≤ 5 ∧ (1024 : Int) ^ k ≤ d ∧ d < 1024 ^ (k + 1) := by
    norm_num at h2
    have hc : d < 1024 ∨ (1024 ≤ d ∧ d < 1048576) ∨ (1048576 ≤ d ∧ d < 1073741824)
        ∨ (1073741824 ≤ d ∧ d < 1099511627776)
        ∨ (1099511627776 ≤ d ∧ d < 1125899906842624)
        ∨ (1125899906842624 ≤ d ∧ d < 1152921504606846976) := by omega
    rcases hc with h | h | h | h | h | h
    · exact ⟨0, by norm_num, by norm_num; exact h1, by norm_num; exact h⟩
    · exact ⟨1, by norm_num, by norm_num; exact h.1, by norm_num; exact h.2⟩
    · exact ⟨2, by norm_num, by norm_num; exact h.1, by norm_num; exact h.2⟩
    · exact ⟨3, by norm_num, by norm_num; exact h.1, by norm_num; exact h.2⟩
    · exact ⟨4, by norm_num, by norm_num; exact h.1, by norm_num; exact h.2⟩
    · exact ⟨5, by norm_num, by norm_num; exact h.1, by norm_num; exact h.2⟩
  obtain ⟨k, hk5, hlo, hhi⟩ := hk
  have hpos : (0 : ℚ) < 1024 ^ k := by positivity
  have hb := float64OfInt_bounds d (10 * k) (10 * (k + 1))
    (by rw [← pow1024_eq]; exact hlo) (by rw [← pow1024_eq]; exact hhi)
  rw [← pow1024_eq, ← pow1024_eq] at hb
  have hbl : ((1024 : ℚ) ^ k) ≤ (float64OfInt d : ℚ) := by exact_mod_cast hb.1
  have hbu : (float64OfInt d : ℚ) ≤ 1024 * 1024 ^ k := by
    have : (float64OfInt d : ℚ) ≤ 1024 ^ (k + 1) := by exact_mod_cast hb.2
    rw [pow_succ] at this
    linarith
  refine ⟨k, hk5, hlo, hhi, ?_, inBynaryPrefix_hit impl r d k hk5 hlo hhi, ?_, ?_, ?_⟩
  · intro j hj1 hj2
    by_contra hne
    rcases Nat.lt_or_gt_of_ne hne with hlt | hgt
    · have : (1024 : Int) ^ (j + 1) ≤ 1024 ^ k := pow_le_pow_right₀ (by norm_num) hlt
      omega
    · have : (1024 : Int) ^ (k + 1) ≤ 1024 ^ j := pow_le_pow_right₀ (by norm_num) hgt
      omega
  · exact (one_le_div hpos).mpr hbl
  · exact (div_le_iff₀ hpos).mpr hbu
  · intro h53
    have he : float64OfInt d = d := float64OfInt_exact d (by omega) h53
    rw [he]
    refine ⟨rfl, ?_⟩
    rw [div_lt_iff₀ hpos]
    have : (d : ℚ) < 1024 ^ (k + 1) := by exact_mod_cast hhi
    rw [pow_succ] at this
    linarith

/-- C5, witness: `1024` is `1.0K`. -/
theorem inBynaryPrefix_scaling_witness :
    ∃ k : Nat, k ≤ 5 ∧ (1024 : Int) ^ k ≤ 1024 ∧ (1024 : Int) < 1024 ^ (k + 1)
      ∧ (∀ j : Nat, (1024 : Int) ^ j ≤ 1024 → (1024 : Int) < 1024 ^ (j + 1) → j = k)
      ∧ inBynaryPrefix 0 (fun _ => 0) 1024
          = .ok ((float64OfInt 1024 : ℚ) / 1024 ^ k, ["", "K", "M", "G", "T", "P"].getD k "")
      ∧ 1 ≤ (float64OfInt 1024 : ℚ) / 1024 ^ k
      ∧ (float64OfInt 1024 : ℚ) / 1024 ^ k ≤ 1024
      ∧ ((1024 : Int) < 2 ^ 53 →
          (float64OfInt 1024 : ℚ) / 1024 ^ k = ((1024 : Int) : ℚ) / 1024 ^ k
            ∧ (float64OfInt 1024 : ℚ) / 1024 ^ k < 1024) :=
  inBynaryPrefix_scaling 0 (fun _ => 0) 1024 (by decide) (by decide)

/-- C5, counterexample: `d = 2^60 - 1` rounds to `2^60` as a `float64`, so the value
returned is `1024` with the prefix `P`: it is not `d / 1024^5` and not below `1024`. -/
theorem inBynaryPrefix_scaling_counterexample :
    inBynaryPrefix 0 (fun _ => 0) 1152921504606846975 = .ok (1024, "P")
      ∧ (1152921504606846975 : ℚ) / 1024 ^ 5 ≠ 1024
      ∧ ¬ ((1024 : ℚ) < 1024) := by
  have hs : Nat.size 1152921504606846975 = 60 :=
    size_of_bounds 1152921504606846975 59 (by norm_num) (by norm_num)
  have hn : float64OfNat 1152921504606846975 = 1152921504606846976 := by
    unfold float64OfNat
    rw [hs]
    norm_num
  have hf : float64OfInt 1152921504606846975 = 1152921504606846976 := by
    unfold float64OfInt
    have ha : Int.natAbs 1152921504606846975 = 1152921504606846975 := rfl
    rw [ha, hn]
    norm_num
  refine ⟨?_, by norm_num, by norm_num⟩
  rw [inBynaryPrefix_hit 0 (fun _ => 0) 1152921504606846975 5 (by norm_num) (by norm_num)
    (by norm_num), hf]
  norm_num

/-! ## Lemmas on the size parser -/

theorem span_digits (ds rest : List Char) (hd : ∀ c ∈ ds, c.isDigit = true)
    (hr : ∀ c ∈ rest.head?, c.isDigit = false) :
    (ds ++ rest).span Char.isDigit = (ds, rest) := by
  rw [List.span_eq_take_drop]
  induction ds with
  | nil =>
    cases rest with
    | nil => simp
    | cons c t =>
      have hc : c.isDigit = false := hr c (by simp)
      simp [List.takeWhile_cons, List.dropWhile_cons, hc]
  | cons a t ih =>
    have ha : a.isDigit = true := hd a (by simp)
    have ht := ih (fun c hc => hd c (by simp [hc]))
    simp only [List.cons_append, List.takeWhile_cons, List.dropWhile_cons, ha, if_true]
    rw [Prod.mk.injEq] at ht ⊢
    exact ⟨by rw [ht.1], ht.2⟩

theorem Atoi_digits (ds : List Char) (hne : ds ≠ []) (hd : ∀ c ∈ ds, c.isDigit = true)
    (hfit : decimalValue ds ≤ 2 ^ 63 - 1) :
    Atoi (String.mk ds) = some (decimalValue ds : Int) := by
  cases ds with
  | nil => exact absurd rfl hne
  | cons a t =>
    have ha : a.isDigit = true := hd a (by simp)
    have hminus : a ≠ '-' := by
      intro h
      rw [h] at ha
      exact absurd ha (by decide)
    have hplus : a ≠ '+' := by
      intro h
      rw [h] at ha
      exact absurd ha (by decide)
    have hall : (a :: t).all Char.isDigit = true := by
      rw [List.all_eq_true]
      exact hd
    have hm : (match (String.mk (a :: t)).data with
        | '-' :: u => (true, u)
        | '+' :: u => (false, u)
        | u => (false, u)) = (false, a :: t) := by
      split
      · rename_i h
        simp at h
        exact absurd h.1 hminus
      · rename_i h
        simp at h
        exact absurd h.1 hplus
      · rfl
    unfold Atoi
    rw [hm]
    simp only [hall, List.isEmpty_cons, Bool.not_true, Bool.or_self, Bool.false_eq_true, if_false]
    rw [if_pos hfit]

set_option maxRecDepth 1000000 in
theorem digits_small : ∀ n : Nat, n < 1024 →
    Nat.toDigits 10 n ≠ [] ∧ (Nat.toDigits 10 n).all Char.isDigit = true
      ∧ decimalValue (Nat.toDigits 10 n) = n := by
  decide
theorem FindAllStringSubmatch_of_parts (bp : String) (ds suffix unit : List Char)
    (hbp : bp.data = ds ++ suffix) (hne : ds ≠ []) (hd : ∀ c ∈ ds, c.isDigit = true)
    (hr : ∀ c ∈ suffix.head?, c.isDigit = false)
    (hu : (matchUnit suffix).1 = unit)
    (hB : matchB (matchUnit suffix).2 = []) :
    FindAllStringSubmatch bp = [[bp, String.mk ds, String.mk unit]] := by
  unfold FindAllStringSubmatch
  rw [hbp, span_digits ds suffix hd hr]
  have hds : ds.isEmpty = false := by
    cases ds with
    | nil => exact absurd rfl hne
    | cons a t => rfl
  rcases hmu : matchUnit suffix with ⟨u, r2⟩
  rw [hmu] at hu hB
  simp only at hu hB
  subst hu
  simp only [hds, Bool.false_eq_true, if_false, hmu, hB, List.isEmpty_nil, if_true]

theorem parseBynaryPrefix_of_parts (impl : Int) (r : Char → Nat) (bp : String)
    (ds suffix unit : List Char)
    (hbp : bp.data = ds ++ suffix) (hne : ds ≠ []) (hd : ∀ c ∈ ds, c.isDigit = true)
    (hr : ∀ c ∈ suffix.head?, c.isDigit = false)
    (hu : (matchUnit suffix).1 = unit)
    (hB : matchB (matchUnit suffix).2 = [])
    (hfit : decimalValue ds ≤ 2 ^ 63 - 1) :
    parseBynaryPrefix impl r bp
      = .ok (wrap64 ((decimalValue ds : Int)
          * intOfByteSize impl (BinaryPrefixDict r (String.mk unit)))) := by
  unfold parseBynaryPrefix
  rw [FindAllStringSubmatch_of_parts bp ds suffix unit hbp hne hd hr hu hB]
  simp [Atoi_digits ds hne hd hfit]
theorem parseBynaryPrefix_of_unit (impl : Int) (r : Char → Nat) (bp : String)
    (ds suffix unit : List Char) (k : Nat)
    (hbp : bp.data = ds ++ suffix) (hne : ds ≠ []) (hd : ∀ c ∈ ds, c.isDigit = true)
    (hr : ∀ c ∈ suffix.head?, c.isDigit = false)
    (hu : (matchUnit suffix).1 = unit)
    (hB : matchB (matchUnit suffix).2 = [])
    (hk : k ≤ 6) (hdict : BinaryPrefixDict r (String.mk unit) = 1024 ^ k)
    (hfit : decimalValue ds * 1024 ^ k ≤ 2 ^ 63 - 1) :
    parseBynaryPrefix impl r bp = .ok ((decimalValue ds : Int) * 1024 ^ k) := by
  have hn : decimalValue ds ≤ 2 ^ 63 - 1 :=
    le_trans (Nat.le_mul_of_pos_right _ (by positivity)) hfit
  rw [parseBynaryPrefix_of_parts impl r bp ds suffix unit hbp hne hd hr hu hB hn, hdict]
  have hi : intOfByteSize impl (1024 ^ k) = 1024 ^ k := by
    unfold intOfByteSize
    have : (1024 : Nat) ^ k < 2 ^ 63 := by
      interval_cases k <;> norm_num
    rw [if_pos this]
    push_cast
    rfl
  rw [hi]
  have hfitN : decimalValue ds * 1024 ^ k < 2 ^ 63 := by
    have h := hfit
    norm_num at h ⊢
    omega
  have hfit2 : (decimalValue ds : Int) * 1024 ^ k < 2 ^ 63 := by
    exact_mod_cast hfitN
  rw [wrap64_of_inRange]
  · have : (0 : Int) ≤ (decimalValue ds : Int) * 1024 ^ k := by positivity
    norm_num
    omega
  · norm_num at hfit2 ⊢
    omega

theorem parseBynaryPrefix_of_suffix (impl : Int) (r : Char → Nat) (ds : List Char)
    (hne : ds ≠ []) (hd : ∀ c ∈ ds, c.isDigit = true) (sfx : String) (k : Nat) (hk : k ≤ 6)
    (hfit : decimalValue ds * 1024 ^ k ≤ 2 ^ 63 - 1)
    (hr : ∀ c ∈ sfx.data.head?, c.isDigit = false)
    (hB : matchB (matchUnit sfx.data).2 = [])
    (hdict : BinaryPrefixDict r (String.mk (matchUnit sfx.data).1) = 1024 ^ k) :
    parseBynaryPrefix impl r (String.mk ds ++ sfx) = .ok ((decimalValue ds : Int) * 1024 ^ k) :=
  parseBynaryPrefix_of_unit impl r _ ds sfx.data _ k (by simp) hne hd hr rfl hB hk hdict hfit

theorem parseBynaryPrefix_variants (impl : Int) (r : Char → Nat) (ds : List Char) (k : Nat)
    (hne : ds ≠ []) (hd : ∀ c ∈ ds, c.isDigit = true) (hk6 : k ≤ 6)
    (hfit : decimalValue ds * 1024 ^ k ≤ 2 ^ 63 - 1) :
    parseBynaryPrefix impl r (String.mk ds ++ plist.getD k "")
        = .ok ((decimalValue ds : Int) * 1024 ^ k)
      ∧ parseBynaryPrefix impl r (String.mk ds ++ plist.getD k "" ++ "B")
        = .ok ((decimalValue ds : Int) * 1024 ^ k)
      ∧ (1 ≤ k →
          parseBynaryPrefix impl r (String.mk ds ++ plist.getD k "" ++ "i")
            = .ok ((decimalValue ds : Int) * 1024 ^ k)
          ∧ parseBynaryPrefix impl r (String.mk ds ++ plist.getD k "" ++ "iB")
            = .ok ((decimalValue ds : Int) * 1024 ^ k)) := by
  have key := parseBynaryPrefix_of_suffix impl r ds hne hd
  interval_cases k <;>
    simp only [plist, List.getD_cons_zero, List.getD_cons_succ, String.append_assoc] <;>
    refine ⟨?_, ?_, fun h => ⟨?_, ?_⟩⟩ <;>
    first
    | omega
    | exact key _ _ (by norm_num) hfit (by simp) rfl
        (by simp [matchUnit, unitClass, BinaryPrefixDict, prefixLetters, List.lookup, KB, MB,
          GB, TB, PB, EB])

/-! ## `parseBynaryPrefix` on well-formed sizes -/

/-- C6: for a non-empty string `ds` of decimal digits of value `n` and the prefix `p_k` of
`K, M, G, T, P, E` (`k = 1..6`) with `n * 1024^k` within a 64-bit int, the strings
`n+p_k`, `n+p_k+"i"`, `n+p_k+"B"` and `n+p_k+"iB"` parse to `n * 1024^k`, and `n` and
`n+"B"` parse to `n`; `1K` and `1KB` give 1024 and `10M` gives 10485760; and for
`1 ≤ n < 1024` and `k` in `0..5`, `n` followed by the prefix that `inBynaryPrefix` returns
for `n * 1024^k` parses back to `n * 1024^k`. -/
theorem parseBynaryPrefix_wellFormed (impl : Int) (r : Char → Nat) :
    (∀ (ds : List Char) (k : Nat), ds ≠ [] → (∀ c ∈ ds, c.isDigit = true) →
        1 ≤ k → k ≤ 6 → decimalValue ds * 1024 ^ k ≤ 2 ^ 63 - 1 →
        parseBynaryPrefix impl r (String.mk ds ++ plist.getD k "")
            = .ok ((decimalValue ds : Int) * 1024 ^ k)
          ∧ parseBynaryPrefix impl r (String.mk ds ++ plist.getD k "" ++ "i")
            = .ok ((decimalValue ds : Int) * 1024 ^ k)
          ∧ parseBynaryPrefix impl r (String.mk ds ++ plist.getD k "" ++ "B")
            = .ok ((decimalValue ds : Int) * 1024 ^ k)
          ∧ parseBynaryPrefix impl r (String.mk ds ++ plist.getD k "" ++ "iB")
            = .ok ((decimalValue ds : Int) * 1024 ^ k)
          ∧ parseBynaryPrefix impl r (String.mk ds) = .ok (decimalValue ds : Int)
          ∧ parseBynaryPrefix impl r (String.mk ds ++ "B") = .ok (decimalValue ds : Int))
      ∧ parseBynaryPrefix impl r "1K" = .ok 1024
      ∧ parseBynaryPrefix impl r "1KB" = .ok 1024
      ∧ parseBynaryPrefix impl r "10M" = .ok 10485760
      ∧ (∀ n k : Nat, 1 ≤ n → n < 1024 → k ≤ 5 →
          ∃ v p, inBynaryPrefix impl r ((n : Int) * 1024 ^ k) = .ok (v, p)
            ∧ parseBynaryPrefix impl r (toString n ++ p) = .ok ((n : Int) * 1024 ^ k)) := by
  refine ⟨?_, ?_, ?_, ?_, ?_⟩
  · intro ds k hne hd hk1 hk6 hfit
    obtain ⟨h1, h2, h3⟩ := parseBynaryPrefix_variants impl r ds k hne hd hk6 hfit
    obtain ⟨h4, h5⟩ := h3 hk1
    have hn : decimalValue ds * 1024 ^ 0 ≤ 2 ^ 63 - 1 := by
      rw [pow_zero, mul_one]
      exact le_trans (Nat.le_mul_of_pos_right _ (by positivity)) hfit
    obtain ⟨g1, g2, _⟩ := parseBynaryPrefix_variants impl r ds 0 hne hd (by norm_num) hn
    simp only [plist, List.getD_cons_zero, String.append_empty, pow_zero, mul_one] at g1 g2
    exact ⟨h1, h4, h2, h5, g1, g2⟩
  · simp [parseBynaryPrefix, FindAllStringSubmatch, List.span, List.span.loop, matchUnit,
      matchB, unitClass, Atoi, decimalValue, BinaryPrefixDict, prefixLetters, List.lookup,
      intOfByteSize, wrap64, KB]
  · simp [parseBynaryPrefix, FindAllStringSubmatch, List.span, List.span.loop, matchUnit,
      matchB, unitClass, Atoi, decimalValue, BinaryPrefixDict, prefixLetters, List.lookup,
      intOfByteSize, wrap64, KB]
  · simp [parseBynaryPrefix, FindAllStringSubmatch, List.span, List.span.loop, matchUnit,
      matchB, unitClass, Atoi, decimalValue, BinaryPrefixDict, prefixLetters, List.lookup,
      intOfByteSize, wrap64, MB]
  · intro n k hn1 hn2 hk
    have hlo : (1024 : Int) ^ k ≤ (n : Int) * 1024 ^ k :=
      le_mul_of_one_le_left (by positivity) (by exact_mod_cast hn1)
    have hhi : (n : Int) * 1024 ^ k < 1024 ^ (k + 1) := by
      rw [pow_succ, mul_comm ((1024 : Int) ^ k) 1024]
      exact mul_lt_mul_of_pos_right (by exact_mod_cast hn2) (by positivity)
    refine ⟨_, _, inBynaryPrefix_hit impl r _ k hk hlo hhi, ?_⟩
    obtain ⟨hne, hall, hval⟩ := digits_small n hn2
    have hd : ∀ c ∈ Nat.toDigits 10 n, c.isDigit = true := List.all_eq_true.mp hall
    have hfit : decimalValue (Nat.toDigits 10 n) * 1024 ^ k ≤ 2 ^ 63 - 1 := by
      rw [hval]
      interval_cases k <;> norm_num <;> omega
    have hp := (parseBynaryPrefix_variants impl r (Nat.toDigits 10 n) k hne hd (by omega) hfit).1
    rw [hval] at hp
    have hpl : ["", "K", "M", "G", "T", "P"].getD k "" = plist.getD k "" := by
      interval_cases k <;> rfl
    rw [hpl]
    exact hp

/-- C6, witness: the digit string `10` with the prefix `M`. -/
theorem parseBynaryPrefix_wellFormed_witness :
    parseBynaryPrefix 0 (fun _ => 0) (String.mk ['1', '0'] ++ plist.getD 2 "")
        = .ok ((decimalValue ['1', '0'] : Int) * 1024 ^ 2)
      ∧ (∃ v p, inBynaryPrefix 0 (fun _ => 0) ((3 : Nat) * 1024 ^ 1 : Int) = .ok (v, p)
          ∧ parseBynaryPrefix 0 (fun _ => 0) (toString 3 ++ p)
              = .ok ((3 : Nat) * 1024 ^ 1 : Int)) :=
  ⟨((parseBynaryPrefix_wellFormed 0 (fun _ => 0)).1 ['1', '0'] 2 (by decide) (by decide)
      (by decide) (by decide) (by decide)).1,
    (parseBynaryPrefix_wellFormed 0 (fun _ => 0)).2.2.2.2 3 1 (by decide) (by decide)
      (by decide)⟩

/-! ## The matcher against the language of the pattern -/

theorem mem_oneOf (cs : List Char) (x : List Char) :
    x ∈ (oneOf cs).matches' ↔ ∃ c ∈ cs, x = [c] := by
  induction cs with
  | nil => simp [oneOf]
  | cons a t ih =>
    have : oneOf (a :: t) = RegularExpression.char a + oneOf t := rfl
    rw [this, RegularExpression.matches'_add, Language.mem_add, ih,
      RegularExpression.matches'_char]
    simp only [List.mem_cons, exists_eq_or_imp]
    rfl

theorem mem_optional (r : RegularExpression Char) (x : List Char) :
    x ∈ (optional r).matches' ↔ x = [] ∨ x ∈ r.matches' := by
  unfold optional
  rw [RegularExpression.matches'_add, Language.mem_add, RegularExpression.matches'_epsilon,
    Language.mem_one]

theorem isDigit_iff (c : Char) : c.isDigit = true ↔ c ∈ digitClass := by
  constructor
  · intro h
    have h1 : 48 ≤ c.toNat ∧ c.toNat ≤ 57 := by
      simp only [Char.isDigit, Bool.and_eq_true, decide_eq_true_eq] at h
      exact ⟨h.1, h.2⟩
    have hc : c = Char.ofNat c.toNat := (Char.ofNat_toNat c).symm
    obtain ⟨ha, hb⟩ := h1
    rw [hc]
    interval_cases c.toNat <;> decide
  · intro h
    simp [digitClass] at h
    rcases h with h | h | h | h | h | h | h | h | h | h <;> subst h <;> rfl

theorem mem_digits_star (x : List Char) :
    x ∈ (oneOf digitClass).star.matches' ↔ ∀ c ∈ x, c.isDigit = true := by
  rw [RegularExpression.matches'_star, Language.mem_kstar]
  constructor
  · rintro ⟨L, rfl, hL⟩ c hc
    obtain ⟨y, hy, hcy⟩ := List.mem_flatten.mp hc
    obtain ⟨a, ha, rfl⟩ := (mem_oneOf digitClass y).mp (hL y hy)
    rw [List.mem_singleton] at hcy
    rw [hcy]
    exact (isDigit_iff a).mpr ha
  · intro h
    refine ⟨x.map (fun c => [c]), ?_, ?_⟩
    · induction x with
      | nil => rfl
      | cons a t ih =>
        simp only [List.map_cons, List.flatten_cons, List.singleton_append]
        rw [← ih (fun c hc => h c (by simp [hc]))]
    · intro y hy
      obtain ⟨a, ha, rfl⟩ := List.mem_map.mp hy
      exact (mem_oneOf digitClass [a]).mpr ⟨a, (isDigit_iff a).mp (h a ha), rfl⟩

theorem mem_digits_plus (x : List Char) :
    x ∈ (oneOf digitClass * (oneOf digitClass).star).matches'
      ↔ x ≠ [] ∧ ∀ c ∈ x, c.isDigit = true := by
  rw [RegularExpression.matches'_mul, Language.mem_mul]
  constructor
  · rintro ⟨a, ha, b, hb, rfl⟩
    obtain ⟨c, hc, rfl⟩ := (mem_oneOf digitClass a).mp ha
    refine ⟨by simp, ?_⟩
    intro y hy
    rcases List.mem_append.mp hy with h | h
    · rw [List.mem_singleton] at h
      rw [h]
      exact (isDigit_iff c).mpr hc
    · exact (mem_digits_star b).mp hb y h
  · rintro ⟨hne, hall⟩
    cases x with
    | nil => exact absurd rfl hne
    | cons a t =>
      refine ⟨[a],
        (mem_oneOf digitClass [a]).mpr ⟨a, (isDigit_iff a).mp (hall a (by simp)), rfl⟩,
        t, (mem_digits_star t).mpr (fun c hc => hall c (by simp [hc])), rfl⟩

theorem mem_unit (x : List Char) :
    x ∈ (oneOf unitClass * optional (RegularExpression.char 'i')
          * optional (RegularExpression.char ']')).matches' ↔ IsUnitText x := by
  simp only [RegularExpression.matches'_mul, Language.mem_mul, mem_oneOf, mem_optional,
    RegularExpression.matches'_char]
  constructor
  · rintro ⟨a, ⟨a1, ⟨c, hc, rfl⟩, a2, h2, rfl⟩, b, hb, rfl⟩
    refine ⟨c, hc, ?_⟩
    rcases h2 with rfl | h2 <;> rcases hb with rfl | hb
    · left; rfl
    · right; right; left
      have : b = [']'] := hb
      rw [this]; rfl
    · right; left
      have : a2 = ['i'] := h2
      rw [this]; rfl
    · right; right; right
      have h1 : a2 = ['i'] := h2
      have h3 : b = [']'] := hb
      rw [h1, h3]; rfl
  · rintro ⟨c, hc, h | h | h | h⟩
    · exact ⟨[c], ⟨[c], ⟨c, hc, rfl⟩, [], Or.inl rfl, rfl⟩, [], Or.inl rfl,
        by simp [h]⟩
    · exact ⟨[c, 'i'], ⟨[c], ⟨c, hc, rfl⟩, ['i'], Or.inr rfl, rfl⟩, [], Or.inl rfl,
        by simp [h]⟩
    · exact ⟨[c], ⟨[c], ⟨c, hc, rfl⟩, [], Or.inl rfl, rfl⟩, [']'], Or.inr rfl,
        by simp [h]⟩
    · exact ⟨[c, 'i'], ⟨[c], ⟨c, hc, rfl⟩, ['i'], Or.inr rfl, rfl⟩, [']'], Or.inr rfl,
        by simp [h]⟩

theorem mem_bp_regex (s : List Char) :
    s ∈ bp_regex.matches' ↔
      ∃ ds u b, s = ds ++ (u ++ b) ∧ ds ≠ [] ∧ (∀ c ∈ ds, c.isDigit = true)
        ∧ (u = [] ∨ IsUnitText u) ∧ (b = [] ∨ b = ['B']) := by
  unfold bp_regex
  rw [RegularExpression.matches'_mul, Language.mem_mul]
  constructor
  · rintro ⟨x, hx, b, hb, rfl⟩
    rw [RegularExpression.matches'_mul, Language.mem_mul] at hx
    obtain ⟨ds, hds, u, hu, rfl⟩ := hx
    rw [mem_digits_plus] at hds
    rw [mem_optional, mem_unit] at hu
    rw [mem_optional, RegularExpression.matches'_char] at hb
    exact ⟨ds, u, b, by simp, hds.1, hds.2, hu, hb⟩
  · rintro ⟨ds, u, b, rfl, hne, hall, hu, hb⟩
    refine ⟨ds ++ u, ?_, b, ?_, by simp⟩
    · rw [RegularExpression.matches'_mul, Language.mem_mul]
      exact ⟨ds, (mem_digits_plus ds).mpr ⟨hne, hall⟩, u,
        (mem_optional _ u).mpr (hu.imp id (mem_unit u).mpr), rfl⟩
    · rw [mem_optional, RegularExpression.matches'_char]
      exact hb

theorem matchUnit_split (r1 : List Char) :
    r1 = (matchUnit r1).1 ++ (matchUnit r1).2
      ∧ ((matchUnit r1).1 = [] ∨ IsUnitText (matchUnit r1).1) := by
  cases r1 with
  | nil => simp [matchUnit]
  | cons c t =>
    by_cases hc : c ∈ unitClass
    · rcases t with _ | ⟨a, t⟩
      · simp only [matchUnit, hc, if_true]
        exact ⟨by simp, Or.inr ⟨c, hc, Or.inl (by simp)⟩⟩
      · by_cases ha : a = 'i'
        · subst ha
          rcases t with _ | ⟨b, t⟩
          · simp only [matchUnit, hc, if_true]
            exact ⟨by simp, Or.inr ⟨c, hc, Or.inr (Or.inl (by simp))⟩⟩
          · by_cases hb : b = ']'
            · subst hb
              simp only [matchUnit, hc, if_true]
              exact ⟨by simp, Or.inr ⟨c, hc, Or.inr (Or.inr (Or.inr (by simp)))⟩⟩
            · have : (matchUnit (c :: 'i' :: b :: t)) = ([c, 'i'], b :: t) := by
                simp [matchUnit, hc, hb]
              rw [this]
              exact ⟨by simp, Or.inr ⟨c, hc, Or.inr (Or.inl rfl)⟩⟩
        · by_cases hb : a = ']'
          · subst hb
            have : (matchUnit (c :: ']' :: t)) = ([c, ']'], t) := by
              simp [matchUnit, hc]
            rw [this]
            exact ⟨by simp, Or.inr ⟨c, hc, Or.inr (Or.inr (Or.inl rfl))⟩⟩
          · have : (matchUnit (c :: a :: t)) = ([c], a :: t) := by
              simp [matchUnit, hc, ha, hb]
            rw [this]
            exact ⟨by simp, Or.inr ⟨c, hc, Or.inl rfl⟩⟩
    · simp [matchUnit, hc]

theorem matchB_eq_nil (r : List Char) : matchB r = [] ↔ r = [] ∨ r = ['B'] := by
  rcases r with _ | ⟨a, t⟩
  · simp [matchB]
  · by_cases ha : a = 'B'
    · subst ha
      simp [matchB]
    · have : matchB (a :: t) = a :: t := by
        unfold matchB
        split
        · rename_i h
          simp at h
          exact absurd h.1 ha
        · rfl
      rw [this]
      simp [ha]

theorem matchUnit_of_unit (u b : List Char) (hu : u = [] ∨ IsUnitText u)
    (hb : b = [] ∨ b = ['B']) :
    matchUnit (u ++ b) = (u, b) ∧ ∀ c ∈ (u ++ b).head?, c.isDigit = false := by
  rcases hu with rfl | ⟨c, hc, hu⟩
  · rcases hb with rfl | rfl
    · simp [matchUnit]
    · simp [matchUnit, unitClass]
  · simp only [unitClass, List.mem_cons, List.mem_singleton, List.not_mem_nil, or_false] at hc
    rcases hc with rfl | rfl | rfl | rfl | rfl | rfl | rfl | rfl | rfl <;>
      rcases hu with rfl | rfl | rfl | rfl <;>
      rcases hb with rfl | rfl <;>
      simp [matchUnit, unitClass]

/-- The matcher `FindAllStringSubmatch` accepts exactly the language of the pattern. -/
theorem FindAllStringSubmatch_iff_matches (bp : String) :
    FindAllStringSubmatch bp ≠ [] ↔ bp.data ∈ bp_regex.matches' := by
  rw [mem_bp_regex]
  constructor
  · intro h
    unfold FindAllStringSubmatch at h
    rw [List.span_eq_take_drop] at h
    simp only at h
    by_cases hds : (List.takeWhile Char.isDigit bp.data).isEmpty = true
    · simp [hds] at h
    · simp only [hds, Bool.false_eq_true, if_false] at h
      by_cases h3 : (matchB (matchUnit (List.dropWhile Char.isDigit bp.data)).2).isEmpty = true
      · obtain ⟨hsplit, hshape⟩ := matchUnit_split (List.dropWhile Char.isDigit bp.data)
        refine ⟨List.takeWhile Char.isDigit bp.data,
          (matchUnit (List.dropWhile Char.isDigit bp.data)).1,
          (matchUnit (List.dropWhile Char.isDigit bp.data)).2, ?_, ?_, ?_, hshape, ?_⟩
        · rw [← hsplit, List.takeWhile_append_dropWhile]
        · intro hnil
          rw [hnil] at hds
          exact hds rfl
        · intro c hc
          exact List.mem_takeWhile_imp hc
        · exact (matchB_eq_nil _).mp (List.isEmpty_iff.mp h3)
      · simp [h3] at h
  · rintro ⟨ds, u, b, hs, hne, hall, hu, hb⟩
    obtain ⟨hm, hr⟩ := matchUnit_of_unit u b hu hb
    rw [FindAllStringSubmatch_of_parts bp ds (u ++ b) u hs hne hall hr (by rw [hm])
      (by rw [hm]; exact (matchB_eq_nil b).mpr hb)]
    simp

/-! ## `parseBynaryPrefix` outside the grammar -/

/-- C7, at the failing input: the strings `1[` and `1K]` are not sizes of the grammar, yet
both belong to the language of the pattern, and `parseBynaryPrefix` returns the size `0`
for them and no error. -/
theorem parseBynaryPrefix_accepts_bracket (impl : Int) (revisits : Char → Nat) :
    parseBynaryPrefix impl revisits "1[" = .ok 0
      ∧ parseBynaryPrefix impl revisits "1K]" = .ok 0
      ∧ "1[".data ∈ bp_regex.matches'
      ∧ "1K]".data ∈ bp_regex.matches' := by
  refine ⟨?_, ?_, ?_, ?_⟩
  · simp [parseBynaryPrefix, FindAllStringSubmatch, List.span, List.span.loop, matchUnit,
      matchB, unitClass, Atoi, decimalValue, BinaryPrefixDict, prefixLetters, List.lookup,
      intOfByteSize, wrap64]
  · simp [parseBynaryPrefix, FindAllStringSubmatch, List.span, List.span.loop, matchUnit,
      matchB, unitClass, Atoi, decimalValue, BinaryPrefixDict, prefixLetters, List.lookup,
      intOfByteSize, wrap64]
  · rw [mem_bp_regex]
    exact ⟨['1'], ['['], [], rfl, by simp, by simp,
      Or.inr ⟨'[', by simp [unitClass], Or.inl rfl⟩, Or.inl rfl⟩
  · rw [mem_bp_regex]
    exact ⟨['1'], ['K', ']'], [], rfl, by simp, by simp,
      Or.inr ⟨'K', by simp [unitClass], Or.inr (Or.inr (Or.inl rfl))⟩, Or.inl rfl⟩

/-! ## Fidelity of the pipe in the mode `silent` -/

theorem limitedPipeLoop_ticks_silent (impl : Int) (revisits : Char → Nat) (term : Terminal)
    (mon : monitor) (opt : option) (hm : mon.mode = "silent") (ts : List Stamp)
    (s : PipeState) (evs : List SelectCase) :
    limitedPipeLoop impl revisits term mon opt s (ts.map SelectCase.tick ++ evs)
      = limitedPipeLoop impl revisits term mon opt
          { s with monProgress := s.monProgress + ts.length } evs := by
  induction ts generalizing s with
  | nil => simp
  | cons t ts ih =>
    rw [List.map_cons, List.cons_append, limitedPipeLoop]
    simp only [monitor.render, hm, if_true, List.append_nil]
    rw [ih]
    congr 1
    simp only [List.length_cons, PipeState.mk.injEq, true_and, and_true]
    omega

/-- The bytes that the loop writes for the chunks `cs` in the mode `silent`. -/
theorem limitedPipeLoop_schedule_silent (impl : Int) (revisits : Char → Nat)
    (term : Terminal) (mon : monitor) (opt : option) (hm : mon.mode = "silent")
    (final : Stamp) (cs : List readbuf)
    (hcs : ∀ c ∈ cs, 0 < c.length ∧ c.length ≤ c.buf.length) (ticks : List (List Stamp))
    (s : PipeState) :
    ∃ t, limitedPipeLoop impl revisits term mon opt s
          (schedule ticks cs ++ [SelectCase.reading_done final]) = .finished t
      ∧ t.out = s.out ++ cs.flatMap (fun c => c.buf.take c.length)
      ∧ t.display = s.display := by
  induction cs generalizing ticks s with
  | nil =>
    rw [schedule, limitedPipeLoop_ticks_silent impl revisits term mon opt hm, limitedPipeLoop]
    simp only [monitor.render, monitor.finish, hm, if_true, List.append_nil]
    exact ⟨_, rfl, by simp, rfl⟩
  | cons c cs ih =>
    obtain ⟨hpos, hle⟩ := hcs c (by simp)
    rw [schedule, List.append_assoc, limitedPipeLoop_ticks_silent impl revisits term mon opt hm,
      List.cons_append, limitedPipeLoop]
    have hne : ¬ c.length = 0 := by omega
    have hslice : sliceTo c.buf (c.length : Int) = .ok (c.buf.take c.length) := by
      unfold sliceTo
      rw [if_pos ⟨by omega, by exact_mod_cast hle⟩]
      simp
    simp only [hne, if_false, hslice, monitor.show, hm, if_true, List.append_nil, ite_self]
    obtain ⟨t, ht, hout, hdisp⟩ := ih (fun c' hc' => hcs c' (by simp [hc'])) ticks.tail
      { out := s.out ++ List.take c.length c.buf,
        readBytes := wrap64 (s.readBytes + ↑c.length),
        monData := if opt.show_data = true then s.monData ++ [List.take c.length c.buf]
          else s.monData,
        monProgress := s.monProgress + (ticks.headD []).length,
        curchan := s.curchan ++ [wrap64 (s.readBytes + ↑c.length)],
        writing_done := s.writing_done + 1,
        cancelled := s.cancelled,
        display := s.display }
    refine ⟨t, ht, ?_, hdisp⟩
    rw [hout]
    simp [List.flatMap_cons, List.append_assoc]

/-- The chunks that `read` sends for a delivery. -/
theorem read_delivery (body : List (List Byte)) (last : List Byte)
    (hbody : ∀ d ∈ body, 1 ≤ d.length ∧ d.length ≤ BUFSIZE)
    (buf : List Byte) (hbuf : buf.length = BUFSIZE) :
    (read buf (delivery body last)).2 = .returned
      ∧ (∀ c ∈ (read buf (delivery body last)).1, 0 < c.length ∧ c.length ≤ c.buf.length)
      ∧ (read buf (delivery body last)).1.flatMap (fun c => c.buf.take c.length)
          = body.flatten ++ last := by
  induction body generalizing buf with
  | nil =>
    simp only [delivery, List.map_nil, List.nil_append, read, List.flatten_nil]
    by_cases h0 : last.length = 0
    · have : last = [] := List.length_eq_zero.mp h0
      simp [h0, this]
    · simp [h0]
      omega
  | cons d body ih =>
    obtain ⟨hd1, hd2⟩ := hbody d (by simp)
    have hlen : (d ++ buf.drop d.length).length = BUFSIZE := by
      rw [List.length_append, List.length_drop]
      omega
    obtain ⟨h1, h2, h3⟩ := ih (fun x hx => hbody x (by simp [hx])) (d ++ buf.drop d.length) hlen
    have hne : ¬ d.length = 0 := by omega
    have hstep : read buf (delivery (d :: body) last)
        = (⟨d.length, d ++ buf.drop d.length⟩
              :: (read (d ++ buf.drop d.length) (delivery body last)).1,
            (read (d ++ buf.drop d.length) (delivery body last)).2) := by
      simp [delivery, read, hne]
    rw [hstep]
    refine ⟨h1, ?_, ?_⟩
    · intro c hc
      rcases List.mem_cons.mp hc with hc | hc
      · subst hc
        simp
        omega
      · exact h2 c hc
    · simp only [List.flatMap_cons, h3, List.flatten_cons, List.append_assoc]
      simp

/-- In the mode `silent` (`silent` set, `graph` not set), whatever the rate, the other
options and the ticks of the ticker, when the source delivers its bytes as successive
reads of 1 to 4096 bytes and then reports end-of-source, with or without last bytes, the
pipe returns with exactly the bytes of the source written to the output, in order, and
nothing written to the display device. -/
theorem limitedPipe_fidelity_silent (impl : Int) (revisits : Char → Nat) (term : Terminal)
    (opt : option) (size : Int) (ticks : List (List Stamp)) (final : Stamp)
    (body : List (List Byte)) (last : List Byte)
    (hs : opt.silent = true) (hg : opt.graph = false)
    (hbody : ∀ d ∈ body, 1 ≤ d.length ∧ d.length ≤ BUFSIZE) :
    ∃ s, limitedPipe impl revisits term opt size ticks final (delivery body last) = .finished s
      ∧ s.out = body.flatten ++ last ∧ s.display = [] := by
  have hm : (limitedPipeMonitor opt size).mode = "silent" := by
    simp [limitedPipeMonitor, hs, hg, monitor.setMode]
  obtain ⟨h1, h2, h3⟩ := read_delivery body last hbody (List.replicate BUFSIZE 0) (by simp)
  obtain ⟨t, ht, hout, hdisp⟩ := limitedPipeLoop_schedule_silent impl revisits term
    (limitedPipeMonitor opt size) opt hm final _ h2 ticks PipeState.init
  refine ⟨t, ?_, ?_, ?_⟩
  · unfold limitedPipe
    rcases hr : read (List.replicate BUFSIZE 0) (delivery body last) with ⟨cs, e⟩
    rw [hr] at h1 ht
    simp only at h1 ht
    subst h1
    simp only [ht]
  · rw [hout, h3]
    simp [PipeState.init]
  · rw [hdisp]
    rfl
/-! ## The monitor inside the pipe -/

/-- The functions that the loop of the pipe calls are those of `monitor.run`: the end of
the events, a progress request, and a chunk to echo. -/
theorem monitor_run_steps (impl : Int) (revisits : Char → Nat) (term : Terminal)
    (mon : monitor) (t : Stamp) (current : Int) (buf : List Byte) (evs : List MonitorEvent) :
    monitor.run impl revisits term mon [] = .ok (mon.finish term)
      ∧ monitor.run impl revisits term mon (.progress t.now t.elapsed current :: evs)
          = (match mon.render impl revisits term t current with
              | .error e => .error e
              | .ok ws => (monitor.run impl revisits term mon evs).map (fun r => ws ++ r))
      ∧ monitor.run impl revisits term mon (.data buf :: evs)
          = (monitor.run impl revisits term mon evs).map (fun r => mon.show term buf ++ r) := by
  obtain ⟨sk, mode, sd, w⟩ := mon
  by_cases hs : mode = "silent"
  · simp [monitor.run, monitor.render, monitor.show, monitor.finish, hs, Except.map]
  · by_cases hg : mode = "graph"
    · refine ⟨?_, ?_, ?_⟩
      · simp [monitor.run, monitor.finish, hs, hg, monitorLoop]
      · simp only [monitor.run, monitor.render, hs, if_false, monitorLoop]
        simp only [if_pos hg]
        generalize graphProgress _ _ _ _ _ _ = r
        cases r <;> rfl
      · simp [monitor.run, monitor.show, hs, hg, monitorLoop]
    · refine ⟨?_, ?_, ?_⟩
      · simp [monitor.run, monitor.finish, hs, hg, monitorLoop]
      · simp only [monitor.run, monitor.render, hs, hg, if_false, monitorLoop]
        generalize standardProgress _ _ _ _ _ _ = r
        cases r <;> rfl
      · simp [monitor.run, monitor.show, hs, hg, monitorLoop]

/-- With nothing transferred the speed is 0 at every clock reading, and the renderer of
every mode but `silent` panics. -/
theorem render_panics_at_zero (impl : Int) (revisits : Char → Nat) (term : Terminal)
    (mon : monitor) (t : Stamp) (hm : mon.mode ≠ "silent") :
    mon.render impl revisits term t 0 = .error (.indexOutOfRange (-1)) := by
  have h : inBynaryPrefix impl revisits 0 = .error (.indexOutOfRange (-1)) := by
    simp [inBynaryPrefix, inBynaryPrefixLoop, plist, BinaryPrefixDict, intOfByteSize]
  have h0 : ∀ sk : speedKeeper, sk.current = 0 → sk.currentSpeed t.elapsed = 0 := by
    intro sk hc
    unfold speedKeeper.currentSpeed
    rw [hc]
    by_cases hd : t.elapsed = 0
    · simp [hd]
    · simp only [hd, if_false]
      have : wrap64 (0 * 1000000000) = 0 := by decide
      rw [this]
      simp
      decide
  unfold monitor.render
  rw [if_neg hm]
  by_cases hg : mon.mode = "graph"
  · rw [if_pos hg]
    unfold graphProgress
    rw [h0 _ rfl, h]
    rfl
  · rw [if_neg hg]
    unfold standardProgress
    rw [h0 _ rfl, h]
    rfl

theorem limitedPipeMonitor_mode (opt : option) (size : Int) :
    (limitedPipeMonitor opt size).mode
      = if opt.graph = true then "graph" else if opt.silent = true then "silent" else "" := by
  cases hg : opt.graph <;> cases hs : opt.silent <;>
    simp [limitedPipeMonitor, hg, hs, monitor.setMode, newMonitor]

/-! ## The pipe in a rendering mode -/

theorem schedule_first_tick (t : Stamp) (ts : List Stamp) (rest : List (List Stamp))
    (cs : List readbuf) :
    ∃ evs, schedule ((t :: ts) :: rest) cs = SelectCase.tick t :: evs := by
  cases cs with
  | nil => exact ⟨_, rfl⟩
  | cons c cs => exact ⟨_, rfl⟩

/-- C1, at the failing input: in every mode but `silent` (here `silent` is not set), with
a tick of the ticker before the first chunk of the source, the renderer is called at speed
0 and reads `plist[-1]`; the process stops on that panic with nothing written to the
output, whatever bytes the source holds.  It is the defect of `inBynaryPrefix(0)`.  The
same source in the mode `silent` ends with its bytes on the output. -/
theorem limitedPipe_render_panic_truncates (impl : Int) (revisits : Char → Nat)
    (term : Terminal) (speed : Int) (tty filename : String) (graph show_data : Bool)
    (size : Int) (t final : Stamp) (ts : List Stamp) (rest : List (List Stamp))
    (src : List ReadResult) :
    limitedPipe impl revisits term ⟨speed, tty, false, graph, filename, show_data⟩ size
        ((t :: ts) :: rest) final src
      = .panicked (.indexOutOfRange (-1)) { PipeState.init with monProgress := 1 }
    ∧ ({ PipeState.init with monProgress := 1 } : PipeState).out = []
    ∧ (∃ s, limitedPipe impl revisits term ⟨speed, tty, true, false, filename, show_data⟩
          size ((t :: ts) :: rest) final (delivery [[104, 105, 33]] [10]) = .finished s
        ∧ s.out = [104, 105, 33, 10]) := by
  refine ⟨?_, rfl, ?_⟩
  · have hm : (limitedPipeMonitor ⟨speed, tty, false, graph, filename, show_data⟩ size).mode
        ≠ "silent" := by
      rw [limitedPipeMonitor_mode]
      cases graph <;> simp
    have hr := render_panics_at_zero impl revisits term _ t hm
    unfold limitedPipe
    rcases hread : read (List.replicate BUFSIZE 0) src with ⟨cs, e⟩
    obtain ⟨evs, hevs⟩ := schedule_first_tick t ts rest cs
    cases e with
    | returned =>
      simp only [hevs, List.cons_append, limitedPipeLoop, PipeState.init, hr]
    | exit code =>
      simp only [hevs, limitedPipeLoop, PipeState.init, hr]
  · obtain ⟨s, hfin, hout, _⟩ := limitedPipe_fidelity_silent impl revisits term
      ⟨speed, tty, true, false, filename, show_data⟩ size ((t :: ts) :: rest) final
      [[104, 105, 33]] [10] rfl rfl (by decide)
    exact ⟨s, hfin, hout⟩

/-! ## The reader on a failed read -/

/-- C8, at the failing input: a read that returns `(0, err)` with an error other than
end-of-source makes `read` return as at the end of the stream.  In the mode `silent` the
pipe then ends as a clean transfer, with `reading_done` taken; in every mode the run ends
by returning or by a panic of the renderer, never with the diagnostic and
`os.Exit(9)`.  The same error with at least one byte read does end in `os.Exit(9)`. -/
theorem read_error_without_bytes_is_clean (impl : Int) (revisits : Char → Nat)
    (term : Terminal) (buf : List Byte) (msg : String) (speed : Int) (tty filename : String)
    (show_data : Bool) (opt : option) (size : Int) (final : Stamp) (rest : List ReadResult)
    (b : Byte) (bs : List Byte) :
    read buf (⟨[], some (.other msg)⟩ :: rest) = ([], .returned)
      ∧ limitedPipe impl revisits term ⟨speed, tty, true, false, filename, show_data⟩ size []
            final (⟨[], some (.other msg)⟩ :: rest)
          = .finished { PipeState.init with monProgress := 1, cancelled := true }
      ∧ ((∃ s, limitedPipe impl revisits term opt size [] final
              (⟨[], some (.other msg)⟩ :: rest) = .finished s)
          ∨ (∃ p s, limitedPipe impl revisits term opt size [] final
              (⟨[], some (.other msg)⟩ :: rest) = .panicked p s))
      ∧ read buf (⟨b :: bs, some (.other msg)⟩ :: rest) = ([], .exit 9) := by
  have hread : ∀ buf0 : List Byte,
      read buf0 (⟨[], some (.other msg)⟩ :: rest) = ([], .returned) := by
    intro buf0
    simp [read]
  refine ⟨hread buf, ?_, ?_, ?_⟩
  · unfold limitedPipe
    rw [hread]
    simp [limitedPipeMonitor, monitor.setMode, newMonitor, schedule, limitedPipeLoop,
      monitor.render, monitor.finish, PipeState.init]
  · unfold limitedPipe
    rw [hread]
    simp only [schedule, List.headD_nil, List.map_nil, List.nil_append, limitedPipeLoop,
      PipeState.init]
    by_cases hm : (limitedPipeMonitor opt size).mode = "silent"
    · left
      simp only [monitor.render, hm, if_true]
      exact ⟨_, rfl⟩
    · right
      rw [render_panics_at_zero impl revisits term _ final hm]
      exact ⟨_, _, rfl⟩
  · simp [read]

end Speed
